import Mathlib

/-
Verification of the file-bundling utility (`bundle_files.py`) and the bundle
splitter (`genfiles.py`).

The two Python scripts are embedded shallowly:

* text is modeled as Lean `String` (a wrapper around `List Char`, matching
  Python's sequence-of-code-points model of `str`);
* the filesystem tree below the start directory is modeled by the inductive
  type `Forest` (a directory listing whose entries are files with contents or
  subdirectories);
* the module-level configuration constants (`EXTENSIONS`, `EXCLUDE_PATTERNS`,
  `EXCLUDE_FILES`, `INCLUDE_PATTERNS`) are gathered into a `Rules` record that
  is passed explicitly, so that statements can quantify over rule sets;
* fallible file reads return `Except PyError`, with `PyError` distinguishing
  `OSError`/`IOError` (which carries the offending path, as `PermissionError`
  and `FileNotFoundError` do) from `UnicodeDecodeError` (a `ValueError`,
  which carries byte diagnostics but not the path);
* paths are POSIX style: the separator is `/`, `os.path.relpath` returns
  slash-separated relative paths, and `os.path.normcase` is the identity.
-/

namespace BundleTool

/-! ## Python character classes

`isPySpace` is the set matched by `\s` in a Python 3 `re` pattern over `str`
(equivalently the characters stripped by `str.strip()`), and `isLineBound`
is the set of line boundaries recognised by `str.splitlines`. -/

/-- Characters considered whitespace by Python (`str.strip`, `re` class `\s`). -/
def isPySpace (c : Char) : Bool :=
  c == ' ' || c == '\t' || c == '\n' || c == '\r' || c == Char.ofNat 0x0b || c == Char.ofNat 0x0c ||
  c == Char.ofNat 0x1c || c == Char.ofNat 0x1d || c == Char.ofNat 0x1e || c == Char.ofNat 0x1f ||
  c == Char.ofNat 0x85 || c == Char.ofNat 0xa0 || c == Char.ofNat 0x1680 ||
  (Char.ofNat 0x2000 <= c && c <= Char.ofNat 0x200a) || c == Char.ofNat 0x2028 ||
  c == Char.ofNat 0x2029 || c == Char.ofNat 0x202f || c == Char.ofNat 0x205f || c == Char.ofNat 0x3000

/-- Line boundary characters of Python's `str.splitlines` (besides these
single-character boundaries, the two-character sequence CR LF counts as one
boundary). -/
def isLineBound (c : Char) : Bool :=
  c == '\n' || c == '\r' || c == Char.ofNat 0x0b || c == Char.ofNat 0x0c ||
  c == Char.ofNat 0x1c || c == Char.ofNat 0x1d || c == Char.ofNat 0x1e ||
  c == Char.ofNat 0x85 || c == Char.ofNat 0x2028 || c == Char.ofNat 0x2029

/-- Python `str.splitlines(keepends=True)` on a list of characters: cut after
every line boundary, keeping the boundary characters; CR LF is one boundary. -/
def splitLinesL : List Char → List (List Char)
  | [] => []
  | [c] => [[c]]
  | c :: d :: rest =>
    if c = '\r' ∧ d = '\n' then ['\r', '\n'] :: splitLinesL rest
    else if isLineBound c then [c] :: splitLinesL (d :: rest)
    else
      match splitLinesL (d :: rest) with
      | [] => [[c]]
      | l :: ls => (c :: l) :: ls

/-- `input_file.read_text().splitlines(keepends=True)` (genfiles.py line 14). -/
def splitLinesK (s : String) : List String :=
  (splitLinesL s.data).map String.mk

/-- Python `str.strip()` on a character list: drop `isPySpace` characters
from both ends. -/
def pyStripL (l : List Char) : List Char :=
  ((l.dropWhile isPySpace).reverse.dropWhile isPySpace).reverse

/-- Python `str.strip()`. -/
def pyStrip (s : String) : String :=
  String.mk (pyStripL s.data)

/-- Python `raw.rstrip("\r\n")` (genfiles.py line 20): remove trailing CR and
LF characters. -/
def rstripCRLF (s : String) : String :=
  String.mk ((s.data.reverse.dropWhile (fun c => c == '\r' || c == '\n')).reverse)

/-! ## The marker pattern

genfiles.py line 11:
`FILE_PATTERN = re.compile(r"^\s*//\s*File:\s*(.+)$")`.
`matchMarker` returns `FILE_PATTERN.match(line).group(1).strip()` when the
anchored match succeeds (the splitter immediately applies `.strip()` to the
captured group, line 27), and `none` when it fails.  The embedding is exact
for the strings the splitter feeds it: lines already stripped of trailing
CR/LF, hence free of `'\n'` (for strings with an embedded newline Python's
`.` and `$` have further special cases that never arise here). -/

/-- Match `^\s*//\s*File:\s*(.+)$` against a line and return the stripped
capture group.  The trailing `\s*(.+)$` of the pattern matches any nonempty
remainder (with backtracking deciding how much whitespace `\s*` keeps), and
since the splitter strips the group, the result is just the stripped
remainder after `File:`. -/
def matchMarker (line : String) : Option String :=
  let l1 := line.data.dropWhile isPySpace
  if l1.take 2 = ['/', '/'] then
    let l2 := (l1.drop 2).dropWhile isPySpace
    if l2.take 5 = ['F', 'i', 'l', 'e', ':'] then
      let rest := l2.drop 5
      if rest.isEmpty then none else some (String.mk (pyStripL rest))
    else none
  else none

/-! ## The splitter

`split_by_marker` (genfiles.py lines 13-36) reads the bundle, walks its lines,
and for every block writes the buffered lines with `write_block`.  We model
the sequence of `write_block` calls as a list of `(relative path, content)`
pairs, in call order (`write_block` itself just writes the concatenation of
the buffered lines to `<output root>/<path>`, overwriting silently).

Python truthiness in the guards is modeled exactly: `current_path` is truthy
iff it is a `str` (not `None`) that is nonempty, and `buffer` is truthy iff
it is a nonempty list. -/

/-- The flush `if current_path and buffer: write_block(...)` (genfiles.py
lines 24-25 and 35-36): a block is written only when `current_path` is truthy
(a nonempty string, not `None`) and `buffer` is truthy (nonempty); the file
content is the concatenation of the buffered raw lines. -/
def pyFlush (cur : Option String) (buf : List String) : List (String × String) :=
  match cur with
  | some p => if p ≠ "" ∧ buf ≠ [] then [(p, String.join buf)] else []
  | none => []

/-- The loop of `split_by_marker` (genfiles.py lines 18-36): state is the
remaining raw lines, `current_path` (`none` = Python `None`) and `buffer`. -/
def splitLoop : List String → Option String → List String → List (String × String)
  | [], cur, buf => pyFlush cur buf
  | raw :: rest, cur, buf =>
    match matchMarker (rstripCRLF raw), cur with
    | some g, _ => pyFlush cur buf ++ splitLoop rest (some g) []
    | none, some p =>
      if p ≠ "" then splitLoop rest cur (buf ++ [raw]) else splitLoop rest cur buf
    | none, none => splitLoop rest cur buf

/-- `split_by_marker` (genfiles.py lines 13-36): the ordered sequence of
`(relative path, file content)` blocks written for a bundle text. -/
def split_by_marker (text : String) : List (String × String) :=
  splitLoop (splitLinesK text) none []

/-! ## Glob matching

`fnmatch.fnmatch(rel_path, pat)` on POSIX is `fnmatch.fnmatchcase` (the
`normcase` calls are the identity): `*` matches any character sequence
including `/`, and `?` matches any single character.  Every other pattern
character must match itself.  (Python also interprets `[...]` character
classes; they appear in none of the repository's patterns nor in any theorem
below, and a `[` here matches only itself.)  The `*` case is phrased through
`List.tails`: `*` consumes an arbitrary prefix, i.e. the rest of the pattern
must match some suffix of the string. -/

/-- Glob matching: first argument the pattern, second the string. -/
def globMatch : List Char → List Char → Bool
  | [], s => s.isEmpty
  | '*' :: ps, s => s.tails.any fun t => globMatch ps t
  | '?' :: ps, s =>
    match s with
    | [] => false
    | _ :: t => globMatch ps t
  | c :: ps, s =>
    match s with
    | [] => false
    | d :: t => d == c && globMatch ps t

/-- `fnmatch.fnmatch(name, pat)` on POSIX. -/
def fnmatch (name pat : String) : Bool :=
  globMatch pat.data name.data

/-! ## The rule set

bundle_files.py lines 16-69 define the module-level configuration constants
`EXTENSIONS`, `EXCLUDE_PATTERNS`, `EXCLUDE_FILES` and `INCLUDE_PATTERNS`.
They are fixed per run; the embedding packs them into a record and passes it
to each function so statements can quantify over rule sets.  (`EXTENSIONS`
is a Python `set`; only membership is used, so a list models it.) -/

structure Rules where
  extensions : List String
  excludePatterns : List String
  excludeFiles : List String
  includePatterns : List String

/-- Python `s.replace("\\", "/")`. -/
def toSlash (s : String) : String :=
  String.mk (s.data.map fun c => if c = '\\' then '/' else c)

/-- Python substring test `pat in rel`. -/
def strIn (pat rel : String) : Bool :=
  decide (pat.data <:+: rel.data)

/-- `should_skip_dir` (bundle_files.py lines 114-120): the normalized relative
directory path is excluded iff some exclusion pattern occurs in it as a
substring. -/
def should_skip_dir (R : Rules) (rel_dir : String) : Bool :=
  R.excludePatterns.any fun pat => strIn pat (toSlash rel_dir)

/-- `os.path.basename` on POSIX: everything after the last `/`. -/
def posixBasename (s : String) : String :=
  String.mk ((s.data.reverse.takeWhile fun c => c ≠ '/').reverse)

/-- `is_excluded_file` (bundle_files.py lines 123-125): the basename is in the
filename exclusion list. -/
def is_excluded_file (R : Rules) (filepath_or_name : String) : Bool :=
  R.excludeFiles.contains (posixBasename filepath_or_name)

/-- `matches_include_patterns` (bundle_files.py lines 128-131): an empty
include list admits everything, otherwise some pattern must match. -/
def matches_include_patterns (R : Rules) (rel_path : String) : Bool :=
  if R.includePatterns.isEmpty then true
  else R.includePatterns.any fun pat => fnmatch rel_path pat

/-- Python `rel_dir.rstrip("/\\")`. -/
def rstripSlashes (s : String) : String :=
  String.mk ((s.data.reverse.dropWhile fun c => c = '/' ∨ c = '\\').reverse)

/-- `is_dir_relevant` (bundle_files.py lines 134-145): with include patterns
present, a directory is descended into only if its (slash-stripped) relative
path matches some include pattern or some include pattern starts with the
directory path plus a separator. -/
def is_dir_relevant (R : Rules) (rel_dir : String) : Bool :=
  if R.includePatterns.isEmpty then true
  else
    let rd := rstripSlashes rel_dir
    if rd = "" ∨ rd = "." then true
    else R.includePatterns.any fun pat =>
      fnmatch rd pat || decide ((rd ++ "/").data <+: pat.data) ||
        decide ((rd ++ "\\").data <+: pat.data)

/-- `Path(fname).suffix`: the part of the name from its last dot, provided
the dot is neither the first nor the last character; otherwise empty
(pathlib: `i = name.rfind('.'); name[i:] if 0 < i < len(name) - 1 else ''`). -/
def pySuffix (name : String) : String :=
  let n := name.data
  match (n.reverse.takeWhile fun c => c ≠ '.') with
  | rtail =>
    let i := n.length - 1 - rtail.length
    if n.contains '.' ∧ 0 < i ∧ i < n.length - 1 then String.mk (n.drop i) else ""

/-- Python `str.lower()`, restricted to its ASCII behavior (`'A'-'Z'` map to
`'a'-'z'`); every extension and name in the configuration and in the theorems
below is ASCII, where `lower` and `casefold` agree with this map. -/
def pyLower (s : String) : String :=
  String.mk (s.data.map Char.toLower)

/-- Python `str.casefold()`, restricted to its ASCII behavior, where it
coincides with `str.lower()`. -/
def caseFold (s : String) : String :=
  String.mk (s.data.map Char.toLower)

/-! ## The filesystem model

A `Forest` is the listing of one directory: a sequence of entries, each a
file (with a `FileData` describing what reading it yields) or a
subdirectory.  The start directory is represented by the forest of its
entries.  `FileData.ok` is a file whose UTF-8 text is read successfully;
`noPermission` models `open` raising `PermissionError` (an `OSError`, i.e.
`IOError`, whose message carries the path); `badBytes` models `f.read()`
raising `UnicodeDecodeError` (a `ValueError`, whose message carries byte
diagnostics but no path). -/

inductive FileData where
  | ok (content : String)
  | noPermission
  | badBytes
deriving DecidableEq

inductive PyError where
  | ioError (path : String)
  | valueError
deriving DecidableEq

inductive Forest where
  | nil : Forest
  | fcons (name : String) (data : FileData) (rest : Forest) : Forest
  | dcons (name : String) (children : Forest) (rest : Forest) : Forest
deriving DecidableEq

/-- `os.path.relpath(os.path.join(dirpath, name), start_dir)` with
slash-normalization: extend a relative directory path by one component
(`rel_dir` is `""` for the start directory itself, where
`os.path.relpath` returns `"."` and the code maps it to `""`). -/
def joinRel (relDir name : String) : String :=
  if relDir = "" then name else relDir ++ "/" ++ name

/-- The per-file filter of `scan_target_files` (bundle_files.py lines
237-249): extension allow-list, filename exclusion, include patterns. -/
def scanFileKeep (R : Rules) (rel_path fname : String) : Bool :=
  R.extensions.contains (pyLower (pySuffix fname)) &&
    !is_excluded_file R fname && matches_include_patterns R rel_path

/-- The file paths contributed by the files of one visited directory
(the `for fname in filenames` loop of `scan_target_files`). -/
def scanFiles (R : Rules) (relDir : String) : Forest → List String
  | .nil => []
  | .fcons n _ r =>
    (if scanFileKeep R (joinRel relDir n) n then [joinRel relDir n] else []) ++
      scanFiles R relDir r
  | .dcons _ _ r => scanFiles R relDir r

/-- The file paths contributed by the subdirectories of a visited directory:
`os.walk` descends top-down into each subdirectory in listing order, and the
loop body of `scan_target_files` (lines 226-235) prunes a directory — clears
`dirnames` and skips its files — when `is_dir_relevant` fails or
`should_skip_dir` holds for its relative path. -/
def scanSubs (R : Rules) (relDir : String) : Forest → List String
  | .nil => []
  | .fcons _ _ r => scanSubs R relDir r
  | .dcons n cs r =>
    (let rd := joinRel relDir n
     if is_dir_relevant R rd then
       if should_skip_dir R rd then []
       else scanFiles R rd cs ++ scanSubs R rd cs
     else []) ++ scanSubs R relDir r

/-- `scan_target_files` (bundle_files.py lines 222-256): the ordered list of
selected relative file paths produced by walking the start directory.  (The
Python function returns absolute paths and also a dictionary recording which
include patterns matched at least once, used only for warnings; the embedding
returns the slash-normalized relative paths, which is how every consumer uses
the list.) -/
def scan_target_files (R : Rules) (root : Forest) : List String :=
  if is_dir_relevant R "" then
    if should_skip_dir R "" then []
    else scanFiles R "" root ++ scanSubs R "" root
  else []

/-! ## Reading files

`bundle_files` reads each selected file with
`open(fp, encoding="utf-8")` / `f.read()` (bundle_files.py lines 278-279),
with no exception handling anywhere on the call path: whatever `open` or
`read` raises propagates and aborts the run.  `readAt` resolves a
slash-separated relative path in the forest and produces the text or the
exception the read raises. -/

/-- Split a relative path on `/` into its components. -/
def slashSegs (s : String) : List String :=
  (s.data.splitOn '/').map String.mk

/-- Look up the `FileData` of a file, given the directory components and the
file name (first matching entry wins). -/
def findData : Forest → List String → String → Option FileData
  | .nil, _, _ => none
  | .fcons n d r, dirs, fname =>
    if dirs = [] ∧ n = fname then some d else findData r dirs fname
  | .dcons n cs r, dirs, fname =>
    match dirs with
    | [] => findData r [] fname
    | d :: ds =>
      match (if n = d then findData cs ds fname else none) with
      | some x => some x
      | none => findData r dirs fname

/-- Read the file at a relative path: `.ok` text on success, the raised
exception otherwise (`PermissionError`/`FileNotFoundError` are `OSError` =
`IOError` and carry the path; `UnicodeDecodeError` is a `ValueError` and does
not). -/
def readAt (root : Forest) (rel : String) : Except PyError String :=
  match (slashSegs rel).reverse with
  | [] => .error (.ioError rel)
  | fname :: rdirs =>
    match findData root rdirs.reverse fname with
    | some (.ok c) => .ok c
    | some .noPermission => .error (.ioError rel)
    | some .badBytes => .error .valueError
    | none => .error (.ioError rel)

/-! ## The bundler

`bundle_files` (bundle_files.py lines 259-284): ensure the output directory,
unlink a pre-existing output file, scan, then write one block per selected
file in `sorted(targets, key=lambda p: os.path.relpath(p, start_dir).casefold())`
order.  Python's `sorted` is a stable sort by the key under the string
order (code-point lexicographic); `List.insertionSort` is also stable, and
all stable sorts by the same total preorder agree. -/

/-- Python string comparison `a <= b`: lexicographic by code point. -/
def lexLE : List Char → List Char → Bool
  | [], _ => true
  | _ :: _, [] => false
  | x :: xs, y :: ys => if x < y then true else if y < x then false else lexLE xs ys

/-- The sort key comparison of bundle_files.py lines 272-274: casefolded
relative paths, compared as Python strings compare (lexicographically by
code point). -/
def ciKey (a b : String) : Prop :=
  lexLE (caseFold a).data (caseFold b).data = true

instance : DecidableRel ciKey := fun a b =>
  inferInstanceAs (Decidable (lexLE (caseFold a).data (caseFold b).data = true))

/-- Sort `(name, value)` pairs by the casefolded name. -/
def ciFstKey {α : Type} (a b : String × α) : Prop :=
  lexLE (caseFold a.1).data (caseFold b.1).data = true

instance {α : Type} : DecidableRel (ciFstKey (α := α)) := fun a b =>
  inferInstanceAs (Decidable (lexLE (caseFold a.1).data (caseFold b.1).data = true))

/-- Python `content.endswith("\n")`. -/
def endsWithNL (s : String) : Bool :=
  match s.data.getLast? with
  | some c => c = '\n'
  | none => false

/-- One output block of `bundle_files` (lines 277-283): the marker line with
the slash-normalized relative path, the file content, a newline if the
content does not already end with one, then one empty separator line. -/
def bundleBlock (rel content : String) : String :=
  "// File: " ++ rel ++ "\n" ++ content ++ (if endsWithNL content then "" else "\n") ++ "\n"

/-- The write loop of `bundle_files` (lines 271-283) applied to an
already-scanned target list: sort case-insensitively, then concatenate the
blocks, reading each file in turn; the first raised exception aborts the
run. -/
def bundleWrite (root : Forest) (targets : List String) : Except PyError String :=
  (List.insertionSort ciKey targets).foldlM
    (fun acc rel => (readAt root rel).map fun c => acc ++ bundleBlock (toSlash rel) c) ""

/-- `bundle_files` (bundle_files.py lines 259-284) minus the output-file
unlinking (modeled separately, see `removeFileSegs`): scan, then write the
bundle text. -/
def bundle_files (R : Rules) (root : Forest) : Except PyError String :=
  bundleWrite root (scan_target_files R root)

/-- The serialization of a list of `(relative path, content)` pairs by the
write loop of `bundle_files`, for files whose contents are in hand: sort by
the case-insensitive key of the path, emit one `bundleBlock` each. -/
def bundleText (files : List (String × String)) : String :=
  String.join ((List.insertionSort (ciFstKey (α := String)) files).map
    fun pc => bundleBlock (toSlash pc.1) pc.2)

/-! ## Unlinking the output file

bundle_files.py lines 260-262 run before the scan on line 264:
`ensure_parent(output_file); if output_file.exists(): output_file.unlink()`.
When the output path lies inside the start directory, the unlink removes that
file from the tree the scan then walks.  `removeFileSegs` is that removal
(file entries only; a directory of the same name is untouched, as
`Path.unlink` removes files). -/

def removeTop : Forest → String → Forest
  | .nil, _ => .nil
  | .fcons n d r, fname => if n = fname then removeTop r fname else .fcons n d (removeTop r fname)
  | .dcons n cs r, fname => .dcons n cs (removeTop r fname)

def removeFileSegs : Forest → List String → String → Forest
  | f, [], fname => removeTop f fname
  | .nil, _ :: _, _ => .nil
  | .fcons n d r, d' :: ds, fname => .fcons n d (removeFileSegs r (d' :: ds) fname)
  | .dcons n cs r, d' :: ds, fname =>
    if n = d' then .dcons n (removeFileSegs cs ds fname) (removeFileSegs r (d' :: ds) fname)
    else .dcons n cs (removeFileSegs r (d' :: ds) fname)

/-- The target list scanned by `bundle_files` after it has unlinked an output
file located at `outDirs/outName` inside the start directory (lines
259-264). -/
def bundlerScanAfterUnlink (R : Rules) (root : Forest) (outDirs : List String)
    (outName : String) : List String :=
  scan_target_files R (removeFileSegs root outDirs outName)

/-! ## The tree printer

`build_tree_lines` (bundle_files.py lines 163-204): a recursive walk that,
per directory, prunes via `is_dir_relevant`/`should_skip_dir` (skipped for
the start directory itself, whose relative path is the empty string),
classifies entries into files (filtered) and subdirectories, sorts both by
`p.name.casefold()`, prints the directory's own name (except for the start
directory), then the file names one level deeper, then recurses into the
subdirectories. -/

/-- The per-file filter of the tree walk (lines 183-190): not in
`EXCLUDE_FILES`; `include_all_files` or an allow-listed extension; and the
include patterns match the relative path. -/
def treeFileKeep (R : Rules) (incAll : Bool) (rel_path name : String) : Bool :=
  !is_excluded_file R name &&
    (incAll || R.extensions.contains (pyLower (pySuffix name))) &&
    matches_include_patterns R rel_path

/-- The names of the files of one directory that the tree walk keeps, in
listing order (the classification loop of lines 178-190). -/
def treeFileNames (R : Rules) (incAll : Bool) (relDir : String) : Forest → List String
  | .nil => []
  | .fcons n _ r =>
    (if treeFileKeep R incAll (joinRel relDir n) n then [n] else []) ++
      treeFileNames R incAll relDir r
  | .dcons _ _ r => treeFileNames R incAll relDir r

/-- The subdirectories of a directory listing, in listing order. -/
def dirsOf : Forest → List (String × Forest)
  | .nil => []
  | .fcons _ _ r => dirsOf r
  | .dcons n cs r => (n, cs) :: dirsOf r

/-- The indentation prefix `'  ' * level`. -/
def ind (level : Nat) : String :=
  String.join (List.replicate level "  ")

lemma sizeOf_mem_dirsOf {f : Forest} {p : String × Forest} (h : p ∈ dirsOf f) :
    sizeOf p.2 < sizeOf f := by
  induction f with
  | nil => simp [dirsOf] at h
  | fcons n d r ih =>
    simp only [dirsOf] at h
    have := ih h
    simp only [Forest.fcons.sizeOf_spec]
    omega
  | dcons n cs r ih1 ih2 =>
    simp only [dirsOf, List.mem_cons] at h
    rcases h with h | h
    · subst h
      simp only [Forest.dcons.sizeOf_spec]
      omega
    · have := ih2 h
      simp only [Forest.dcons.sizeOf_spec]
      omega

lemma sizeOf_mem_sorted_dirsOf {f : Forest} {p : String × Forest}
    (h : p ∈ List.insertionSort ciFstKey (dirsOf f)) : sizeOf p.2 < sizeOf f :=
  sizeOf_mem_dirsOf ((List.perm_insertionSort ciFstKey (dirsOf f)).mem_iff.mp h)

/-- The recursive `walk` of `build_tree_lines` (lines 166-202).  `name` is
`current_dir.name`, `relDir` its slash-normalized relative path (`""` for the
start directory, where Python's `rel_dir` is mapped from `"."` to `""`),
`cs` its listing and `level` the indentation level. -/
def walkTree (R : Rules) (incAll : Bool) (name relDir : String) (cs : Forest)
    (level : Nat) : List String :=
  if relDir ≠ "" ∧ ¬ is_dir_relevant R relDir then []
  else if relDir ≠ "" ∧ should_skip_dir R relDir then []
  else
    let isRoot := relDir = ""
    let fileLines := (List.insertionSort ciKey (treeFileNames R incAll relDir cs)).map
      fun fn => ind (if isRoot then level else level + 1) ++ "* " ++ fn
    let subLines := ((List.insertionSort ciFstKey (dirsOf cs)).attach.map
      fun d => walkTree R incAll d.1.1 (joinRel relDir d.1.1) d.1.2
        (if isRoot then level else level + 1)).flatten
    (if isRoot then [] else [ind level ++ "* " ++ name]) ++ fileLines ++ subLines
termination_by sizeOf cs
decreasing_by exact sizeOf_mem_sorted_dirsOf d.2

/-- `build_tree_lines` (bundle_files.py lines 163-204). -/
def build_tree_lines (R : Rules) (incAll : Bool) (root : Forest) : List String :=
  walkTree R incAll "" "" root 0

/-! ## Well-formed trees and path segments

A real directory tree has nonempty entry names free of the path separator
(`/` cannot occur in a POSIX filename; backslashes are also excluded so that
the bundler's `replace("\\", "/")` normalization is the identity on paths).
Relative paths below the start directory correspond to nonempty lists of
such segments, joined by `/`. -/

/-- A legal entry name: nonempty, without `/` or `\`. -/
def validName (n : String) : Bool :=
  !n.isEmpty && n.data.all fun c => c ≠ '/' ∧ c ≠ '\\'

/-- All entry names in the forest are legal. -/
def ValidForest : Forest → Bool
  | .nil => true
  | .fcons n _ r => validName n && ValidForest r
  | .dcons n cs r => validName n && ValidForest cs && ValidForest r

/-- Join path segments with `/` (`[] ↦ ""`, the relative path of the start
directory itself). -/
def joinSegs : List String → String
  | [] => ""
  | [s] => s
  | s :: rest => s ++ "/" ++ joinSegs rest

/-- Membership of a file in the tree, by directory segments and name. -/
def hasFileSegs : Forest → List String → String → Bool
  | .nil, _, _ => false
  | .fcons n _ r, dirs, fname => (dirs.isEmpty && n == fname) || hasFileSegs r dirs fname
  | .dcons n cs r, dirs, fname =>
    (match dirs with
     | [] => false
     | d :: ds => n == d && hasFileSegs cs ds fname) || hasFileSegs r dirs fname

/-! ## The claims' own predicates

`claimFourPreds` renders the four filter predicates in the words of the
specification ("the file's lowercase extension is in the allow-list, no path
segment of the relative path (split on separators) contains any
directory-exclusion pattern as a substring, the file's basename is not in
the filename-exclusion list, and, when include-patterns are non-empty, the
relative path matches at least one include glob"), to be compared with what
`scan_target_files` actually selects. -/

/-- A glob-free path segment: a legal entry name none of whose characters is
a glob metacharacter (`*`, `?`, `[`).  Include patterns built from such
segments mean exactly what they say, with no wildcard effects inside a
segment. -/
def plainSeg (s : String) : Bool :=
  validName s && s.data.all fun c => c ≠ '*' ∧ c ≠ '?' ∧ c ≠ '['

def claimFourPreds (R : Rules) (p : String) : Bool :=
  R.extensions.contains (pyLower (pySuffix (posixBasename p))) &&
    (slashSegs p).all (fun seg => R.excludePatterns.all fun pat =>
      !decide (pat.data <:+: seg.data)) &&
    !R.excludeFiles.contains (posixBasename p) &&
    (R.includePatterns.isEmpty || R.includePatterns.any fun pat => fnmatch p pat)

/-! ## The tree listing as the claim describes it

`claimDirBlocks` renders, for each subdirectory of a directory (in listing
order), the pair of its name and its rendered subtree: nothing if the
subdirectory is pruned, otherwise its own `* name` line, then its selected
file names sorted case-insensitively one level deeper, then its
subdirectories' subtrees in case-insensitive name order.  `build_tree_claim`
lists the root's selected files at indentation level 0, then the root's
subdirectory subtrees in case-insensitive name order — the root itself is
never printed.  (Sorting the rendered `(name, block)` pairs by name is the
same as rendering in sorted order, since rendering is pure.) -/

def claimDirBlocks (R : Rules) (incAll : Bool) : String → Nat → Forest → List (String × List String)
  | _, _, .nil => []
  | relDir, level, .fcons _ _ r => claimDirBlocks R incAll relDir level r
  | relDir, level, .dcons n cs r =>
    (n,
      let rd := joinRel relDir n
      if ¬ is_dir_relevant R rd ∨ should_skip_dir R rd then []
      else
        (ind level ++ "* " ++ n) ::
          ((List.insertionSort ciKey (treeFileNames R incAll rd cs)).map
              (fun fn => ind (level + 1) ++ "* " ++ fn) ++
            ((List.insertionSort ciFstKey (claimDirBlocks R incAll rd (level + 1) cs)).map
                Prod.snd).flatten)) ::
      claimDirBlocks R incAll relDir level r

/-- The tree listing as claimed: root files (case-insensitively sorted) at
level 0, then the root's subdirectory subtrees in case-insensitive name
order; the root directory itself is not printed. -/
def build_tree_claim (R : Rules) (incAll : Bool) (root : Forest) : List String :=
  (List.insertionSort ciKey (treeFileNames R incAll "" root)).map
      (fun fn => ind 0 ++ "* " ++ fn) ++
    ((List.insertionSort ciFstKey (claimDirBlocks R incAll "" 0 root)).map Prod.snd).flatten

/-- Whether the splitter treats a raw input line as a block delimiter
(genfiles.py lines 20-21: the line is stripped of trailing CR/LF, then
matched against `FILE_PATTERN`). -/
def isMarkerLine (raw : String) : Bool :=
  (matchMarker (rstripCRLF raw)).isSome

/-- The content of a file as the bundler normalizes it: a trailing newline
is appended when missing (bundle_files.py lines 281-282). -/
def ensureNL (c : String) : String :=
  c ++ (if endsWithNL c then "" else "\n")

/-- A relative path that survives the bundle format unchanged: nonempty,
already stripped (no leading or trailing Python whitespace), and free of
line-boundary characters and backslashes. -/
def goodPath (p : String) : Bool :=
  !p.isEmpty && decide (pyStrip p = p) &&
    p.data.all fun c => !isLineBound c && c ≠ '\\'

/-- The spec's "exact form": the line starts with the literal text
`// File: `. -/
def claimExactMarker (l : String) : Bool :=
  decide (("// File: ").data <+: l.data)

/-! ## Generic helper lemmas -/

lemma dropWhile_append_all {p : Char → Bool} {w l : List Char}
    (hw : ∀ c ∈ w, p c = true) : (w ++ l).dropWhile p = l.dropWhile p := by
  induction w with
  | nil => rfl
  | cons a w ih =>
    have ha : p a = true := hw a (List.mem_cons_self a w)
    simp only [List.cons_append, List.dropWhile_cons, ha, if_true]
    exact ih fun c hc => hw c (List.mem_cons_of_mem a hc)

lemma dropWhile_eq_self_of_head {p : Char → Bool} {x : Char} {l : List Char}
    (hx : p x = false) : (x :: l).dropWhile p = x :: l := by
  simp [List.dropWhile_cons, hx]

lemma string_mk_data (l : List Char) : (String.mk l).data = l := rfl

lemma string_ext_data {s t : String} (h : s.data = t.data) : s = t := by
  cases s
  cases t
  exact congrArg String.mk h

/-! ## C5: which lines are block delimiters -/

lemma isPySpace_slash : isPySpace '/' = false := by decide

lemma isPySpace_F : isPySpace 'F' = false := by decide

lemma take2_cons (a b : Char) (l : List Char) : List.take 2 (a :: b :: l) = [a, b] := rfl

lemma drop2_cons (a b : Char) (l : List Char) : List.drop 2 (a :: b :: l) = l := rfl

lemma take5_cons (a b c d e : Char) (l : List Char) :
    List.take 5 (a :: b :: c :: d :: e :: l) = [a, b, c, d, e] := rfl

lemma drop5_cons (a b c d e : Char) (l : List Char) :
    List.drop 5 (a :: b :: c :: d :: e :: l) = l := rfl

/-- The exact shape of the lines the marker pattern accepts: any whitespace,
`//`, any whitespace, `File:`, then at least one further character. -/
lemma matchMarker_isSome_iff (l : String) :
    (matchMarker l).isSome = true ↔
      ∃ w1 w2 rest : List Char,
        l.data = w1 ++ '/' :: '/' :: (w2 ++ 'F' :: 'i' :: 'l' :: 'e' :: ':' :: rest) ∧
        (∀ c ∈ w1, isPySpace c = true) ∧ (∀ c ∈ w2, isPySpace c = true) ∧ rest ≠ [] := by
  constructor
  · intro h
    unfold matchMarker at h
    by_cases h2 : (l.data.dropWhile isPySpace).take 2 = ['/', '/']
    swap
    · simp only [h2, if_false] at h
      simp at h
    by_cases h5 : (((l.data.dropWhile isPySpace).drop 2).dropWhile isPySpace).take 5 =
        ['F', 'i', 'l', 'e', ':']
    swap
    · simp only [h2, if_true, h5, if_false] at h
      simp at h
    refine ⟨l.data.takeWhile isPySpace, ((l.data.dropWhile isPySpace).drop 2).takeWhile isPySpace,
      (((l.data.dropWhile isPySpace).drop 2).dropWhile isPySpace).drop 5, ?_, ?_, ?_, ?_⟩
    · conv_lhs => rw [← List.takeWhile_append_dropWhile (p := isPySpace) (l := l.data)]
      congr 1
      conv_lhs => rw [← List.take_append_drop 2 (l.data.dropWhile isPySpace), h2]
      simp only [List.cons_append, List.nil_append, List.cons.injEq, true_and]
      conv_lhs =>
        rw [← List.takeWhile_append_dropWhile (p := isPySpace)
          (l := (l.data.dropWhile isPySpace).drop 2)]
      congr 1
      conv_lhs =>
        rw [← List.take_append_drop 5 (((l.data.dropWhile isPySpace).drop 2).dropWhile isPySpace),
          h5]
      rfl
    · intro c hc
      exact List.mem_takeWhile_imp hc
    · intro c hc
      exact List.mem_takeWhile_imp hc
    · intro hemp
      simp only [h2, if_true, h5, if_true, hemp, List.isEmpty_nil, if_true] at h
      simp at h
  · rintro ⟨w1, w2, rest, hdata, hw1, hw2, hrest⟩
    unfold matchMarker
    rw [hdata, dropWhile_append_all hw1, dropWhile_eq_self_of_head isPySpace_slash]
    simp only [take2_cons, drop2_cons, if_true]
    rw [dropWhile_append_all hw2, dropWhile_eq_self_of_head isPySpace_F]
    simp only [take5_cons, drop5_cons, if_true]
    simp [List.isEmpty_iff, hrest]

/-! ## Splitlines lemmas -/

lemma splitLinesL_ne_nil {c : Char} (l : List Char) : splitLinesL (c :: l) ≠ [] := by
  rcases l with _ | ⟨d, r⟩
  · simp [splitLinesL]
  · rw [splitLinesL]
    split
    · simp
    · split
      · simp
      · split <;> simp

lemma splitLinesL_pair (l : List Char) :
    splitLinesL ('\r' :: '\n' :: l) = ['\r', '\n'] :: splitLinesL l := by
  rw [splitLinesL]
  simp

lemma splitLinesL_cons_bound {c : Char} {l : List Char} (hb : isLineBound c = true)
    (hpair : ¬ (c = '\r' ∧ l.head? = some '\n')) :
    splitLinesL (c :: l) = [c] :: splitLinesL l := by
  rcases l with _ | ⟨d, r⟩
  · simp [splitLinesL]
  · rw [splitLinesL, if_neg (by simpa using hpair), if_pos hb]

lemma splitLinesL_cons_nb {c : Char} {l : List Char} (hb : isLineBound c = false) :
    splitLinesL (c :: l) =
      (match splitLinesL l with
      | [] => [[c]]
      | h :: t => (c :: h) :: t) := by
  rcases l with _ | ⟨d, r⟩
  · simp [splitLinesL]
  · have hc : ¬ (c = '\r' ∧ d = '\n') := by
      rintro ⟨h1, h2⟩
      subst h1
      exact absurd hb (by decide)
    rw [splitLinesL, if_neg hc, if_neg (by simp [hb])]

lemma splitLinesL_eq_nil_iff (l : List Char) : splitLinesL l = [] ↔ l = [] := by
  rcases l with _ | ⟨c, r⟩
  · simp [splitLinesL]
  · simp [splitLinesL_ne_nil]

lemma flatten_splitLinesL (l : List Char) : (splitLinesL l).flatten = l := by
  induction l using splitLinesL.induct with
  | case1 => simp [splitLinesL]
  | case2 c => simp [splitLinesL]
  | case3 c d rest hp ih =>
    obtain ⟨h1, h2⟩ := hp
    subst h1; subst h2
    rw [splitLinesL_pair]
    simp [ih]
  | case4 c d rest hp hb ih =>
    rw [splitLinesL_cons_bound hb (by simp only [List.head?_cons, Option.some.injEq]; exact hp)]
    simp [ih]
  | case5 c d rest hp hb hnil ih =>
    exact absurd hnil (splitLinesL_ne_nil _)
  | case6 c d rest hp hb h t hsp ih =>
    rw [splitLinesL_cons_nb (by simpa using hb), hsp]
    rw [hsp] at ih
    simp only [List.flatten_cons] at ih ⊢
    simp [← ih]
end BundleTool

namespace BundleTool
lemma splitLinesL_nl_cons (m : List Char) :
    splitLinesL ('\n' :: m) = ['\n'] :: splitLinesL m := by
  apply splitLinesL_cons_bound (by decide)
  simp

lemma splitLinesL_nb_nl {c : Char} (hb : isLineBound c = false) (m : List Char) :
    splitLinesL (c :: '\n' :: m) = [c, '\n'] :: splitLinesL m := by
  rw [splitLinesL_cons_nb hb, splitLinesL_nl_cons]

lemma splitLinesL_nb_single {c : Char} (hb : isLineBound c = false) :
    splitLinesL [c, '\n'] = [[c, '\n']] := by
  rw [splitLinesL_cons_nb hb]
  simp [splitLinesL]

lemma splitLinesL_append_nl (a m : List Char) :
    splitLinesL (a ++ '\n' :: m) = splitLinesL (a ++ ['\n']) ++ splitLinesL m := by
  induction a using splitLinesL.induct with
  | case1 =>
    simp only [List.nil_append, splitLinesL_nl_cons]
    simp [splitLinesL]
  | case2 c =>
    by_cases hc : c = '\r'
    · subst hc
      simp only [List.cons_append, List.nil_append, List.singleton_append]
      rw [splitLinesL_pair, splitLinesL_pair]
      simp [splitLinesL]
    · by_cases hb : isLineBound c
      · simp only [List.singleton_append]
        rw [splitLinesL_cons_bound hb (by simp [hc]),
          splitLinesL_cons_bound hb (by simp [hc]), splitLinesL_nl_cons]
        simp [splitLinesL]
      · simp only [List.singleton_append]
        rw [splitLinesL_nb_nl (by simpa using hb), splitLinesL_nb_single (by simpa using hb)]
        simp
  | case3 c d rest hp ih =>
    obtain ⟨h1, h2⟩ := hp
    subst h1; subst h2
    simp only [List.cons_append] at ih ⊢
    rw [splitLinesL_pair, splitLinesL_pair, ih]
    simp
  | case4 c d rest hp hb ih =>
    simp only [List.cons_append] at ih ⊢
    have hp2 : ¬ (c = '\r' ∧ d = '\n') := hp
    rw [splitLinesL_cons_bound hb (by simp only [List.head?_cons, Option.some.injEq]; exact hp2),
      splitLinesL_cons_bound hb (by simp only [List.head?_cons, Option.some.injEq]; exact hp2),
      ih]
    simp
  | case5 c d rest hp hb hnil ih =>
    exact absurd hnil (splitLinesL_ne_nil _)
  | case6 c d rest hp hb h t hsp ih =>
    simp only [List.cons_append] at ih ⊢
    conv_lhs => rw [splitLinesL_cons_nb (by simpa using hb)]
    conv_rhs => rw [splitLinesL_cons_nb (by simpa using hb)]
    rw [ih]
    rcases hsp2 : splitLinesL (d :: (rest ++ ['\n'])) with _ | ⟨h2, t2⟩
    · exact absurd hsp2 (splitLinesL_ne_nil _)
    · simp

/-! ## Order lemmas -/

lemma lexLE_total (a : List Char) : ∀ b, lexLE a b = true ∨ lexLE b a = true := by
  induction a with
  | nil =>
    intro b
    left
    rfl
  | cons x xs ih =>
    intro b
    rcases b with _ | ⟨y, ys⟩
    · right
      rfl
    · rw [lexLE, lexLE]
      rcases lt_trichotomy x y with h | h | h
      · left
        simp [h]
      · subst h
        simp only [lt_irrefl, if_false]
        exact ih ys
      · right
        simp [h]

lemma lexLE_trans : ∀ a b c : List Char,
    lexLE a b = true → lexLE b c = true → lexLE a c = true := by
  intro a
  induction a with
  | nil =>
    intro b c h1 h2
    rfl
  | cons x xs ih =>
    intro b c h1 h2
    rcases b with _ | ⟨y, ys⟩
    · exact absurd h1 (by simp [lexLE])
    · rcases c with _ | ⟨z, zs⟩
      · exact absurd h2 (by simp [lexLE])
      · rw [lexLE] at h1 h2 ⊢
        rcases lt_trichotomy x y with hxy | hxy | hxy
        · rcases lt_trichotomy y z with hyz | hyz | hyz
          · simp [lt_trans hxy hyz]
          · subst hyz
            simp [hxy]
          · rw [if_neg (by simpa using not_lt_of_gt hyz), if_pos hyz] at h2
            exact absurd h2 (by simp)
        · subst hxy
          rcases lt_trichotomy x z with hxz | hxz | hxz
          · simp [hxz]
          · subst hxz
            simp only [lt_irrefl, if_false] at h1 h2 ⊢
            exact ih ys zs h1 h2
          · rw [if_neg (by simpa using not_lt_of_gt hxz), if_pos hxz] at h2
            exact absurd h2 (by simp)
        · rw [if_neg (by simpa using not_lt_of_gt hxy), if_pos hxy] at h1
          exact absurd h1 (by simp)

instance : IsTotal String ciKey :=
  ⟨fun a b => by
    rcases lexLE_total (caseFold a).data (caseFold b).data with h | h
    · exact Or.inl h
    · exact Or.inr h⟩

instance : IsTrans String ciKey :=
  ⟨fun _ _ _ h h2 => lexLE_trans _ _ _ h h2⟩

instance {α : Type} : IsTotal (String × α) ciFstKey :=
  ⟨fun a b => by
    rcases lexLE_total (caseFold a.1).data (caseFold b.1).data with h | h
    · exact Or.inl h
    · exact Or.inr h⟩

instance {α : Type} : IsTrans (String × α) ciFstKey :=
  ⟨fun _ _ _ h h2 => lexLE_trans _ _ _ h h2⟩

/-! ## String bridges -/

lemma mk_append (a b : List Char) : String.mk a ++ String.mk b = String.mk (a ++ b) := rfl

lemma foldl_append_mk (ls : List (List Char)) (acc : List Char) :
    List.foldl (· ++ ·) (String.mk acc) (ls.map String.mk) = String.mk (acc ++ ls.flatten) := by
  induction ls generalizing acc with
  | nil => simp
  | cons h t ih =>
    simp only [List.map_cons, List.foldl_cons, mk_append, List.flatten_cons, ih,
      List.append_assoc]

lemma join_map_mk (ls : List (List Char)) :
    String.join (ls.map String.mk) = String.mk ls.flatten := by
  have h0 : ("" : String) = String.mk [] := rfl
  rw [String.join, h0, foldl_append_mk]
  rfl

lemma join_splitLinesK (s : String) : String.join (splitLinesK s) = s := by
  rw [splitLinesK, join_map_mk, flatten_splitLinesL]

lemma splitLinesK_eq_nil_iff (s : String) : splitLinesK s = [] ↔ s = "" := by
  rw [splitLinesK]
  constructor
  · intro h
    rcases List.map_eq_nil_iff.mp h with h2
    apply string_ext_data
    exact (splitLinesL_eq_nil_iff s.data).mp h2
  · intro h
    subst h
    rfl

lemma endsWithNL_iff (s : String) : endsWithNL s = true ↔ ∃ a, s.data = a ++ ['\n'] := by
  rw [endsWithNL]
  constructor
  · intro h
    rcases hg : s.data.getLast? with _ | c
    · rw [hg] at h
      simp at h
    · rw [hg] at h
      simp at h
      subst h
      rcases List.getLast?_eq_some_iff.mp hg with ⟨a, ha⟩
      exact ⟨a, ha⟩
  · rintro ⟨a, ha⟩
    rw [ha]
    simp

lemma splitLinesK_append {s : String} (t : String) (h : endsWithNL s = true) :
    splitLinesK (s ++ t) = splitLinesK s ++ splitLinesK t := by
  rcases (endsWithNL_iff s).mp h with ⟨a, ha⟩
  rcases s with ⟨sd⟩
  rcases t with ⟨td⟩
  simp only [splitLinesK]
  have hdata : (String.mk sd ++ String.mk td).data = sd ++ td := rfl
  rw [hdata]
  simp only at ha
  subst ha
  rw [List.append_assoc]
  have : ['\n'] ++ td = '\n' :: td := rfl
  rw [this, splitLinesL_append_nl]
  simp

lemma dropWhile_cons_pos {p : Char → Bool} {x : Char} {l : List Char} (hx : p x = true) :
    (x :: l).dropWhile p = l.dropWhile p := by
  simp [List.dropWhile_cons, hx]

lemma dropWhile_all_false {p : Char → Bool} {l : List Char} (h : ∀ c ∈ l, p c = false) :
    l.dropWhile p = l := by
  rcases l with _ | ⟨x, l2⟩
  · rfl
  · exact dropWhile_eq_self_of_head (h x (List.mem_cons_self x l2))

lemma pyStripL_cons_space (x : List Char) : pyStripL (' ' :: x) = pyStripL x := by
  rw [pyStripL, pyStripL, dropWhile_cons_pos (by decide)]

lemma matchMarker_file_line (p : String) :
    matchMarker ("// File: " ++ p) = some (pyStrip p) := by
  have hdata : ("// File: " ++ p).data =
      '/' :: '/' :: ' ' :: 'F' :: 'i' :: 'l' :: 'e' :: ':' :: ' ' :: p.data := by
    rw [String.data_append]
    rfl
  unfold matchMarker
  rw [hdata, dropWhile_eq_self_of_head isPySpace_slash]
  simp only [take2_cons, drop2_cons, if_true]
  rw [dropWhile_cons_pos (by decide), dropWhile_eq_self_of_head isPySpace_F]
  simp only [take5_cons, drop5_cons, if_true, List.isEmpty_cons, Bool.false_eq_true, if_false,
    pyStripL_cons_space]
  rfl

lemma rstripCRLF_clean_nl {l : List Char}
    (h : ∀ c ∈ l, (c == '\r' || c == '\n') = false) :
    rstripCRLF (String.mk (l ++ ['\n'])) = String.mk l := by
  rw [rstripCRLF]
  simp only [string_mk_data, List.reverse_append]
  have h1 : (['\n'].reverse ++ l.reverse).dropWhile (fun c => c == '\r' || c == '\n') =
      l.reverse := by
    have h2 : (['\n'] : List Char).reverse = ['\n'] := rfl
    rw [h2, List.singleton_append, dropWhile_cons_pos (by decide)]
    apply dropWhile_all_false
    intro c hc
    exact h c (List.mem_reverse.mp hc)
  rw [h1, List.reverse_reverse]


/-! ## Bundle block structure -/

lemma map_mk_data (l : List String) : (l.map String.data).map String.mk = l := by
  rw [List.map_map]
  have h : String.mk ∘ String.data = id := by
    funext s
    cases s
    rfl
  rw [h, List.map_id]

lemma join_eq_mk_flatten (l : List String) :
    String.join l = String.mk ((l.map String.data).flatten) := by
  conv_lhs => rw [← map_mk_data l]
  rw [join_map_mk]

lemma join_append (a b : List String) :
    String.join (a ++ b) = String.join a ++ String.join b := by
  rw [join_eq_mk_flatten, join_eq_mk_flatten, join_eq_mk_flatten, mk_append]
  simp

lemma join_singleton (s : String) : String.join [s] = s := by
  rw [join_eq_mk_flatten]
  cases s
  simp

lemma goodPath_props {p : String} (h : goodPath p = true) :
    p ≠ "" ∧ pyStrip p = p ∧ (∀ c ∈ p.data, isLineBound c = false) ∧
      (∀ c ∈ p.data, c ≠ '\\') := by
  rw [goodPath] at h
  simp only [Bool.and_eq_true, decide_eq_true_eq, List.all_eq_true] at h
  obtain ⟨⟨h1, h2⟩, h3⟩ := h
  refine ⟨?_, h2, ?_, ?_⟩
  · intro he
    subst he
    exact absurd h1 (by decide)
  · intro c hc
    have := h3 c hc
    simp only [Bool.and_eq_true, Bool.not_eq_true'] at this
    exact this.1
  · intro c hc
    have := h3 c hc
    simp only [Bool.and_eq_true, decide_eq_true_eq] at this
    exact this.2

lemma notLineBound_notCRLF {c : Char} (h : isLineBound c = false) :
    (c == '\r' || c == '\n') = false := by
  rcases hr : c == '\r' with _ | _
  · rcases hn : c == '\n' with _ | _
    · simp [hr, hn]
    · exfalso
      have : c = '\n' := by simpa using hn
      subst this
      exact absurd h (by decide)
  · exfalso
    have : c = '\r' := by simpa using hr
    subst this
    exact absurd h (by decide)

lemma singleLine_of_clean {l : List Char} (h : ∀ c ∈ l, isLineBound c = false) :
    splitLinesL (l ++ ['\n']) = [l ++ ['\n']] := by
  induction l with
  | nil => simp [splitLinesL]
  | cons c l2 ih =>
    have hc : isLineBound c = false := h c (List.mem_cons_self c l2)
    rw [List.cons_append, splitLinesL_cons_nb hc, ih fun x hx => h x (List.mem_cons_of_mem c hx)]

lemma bundleBlock_decomp (rel c : String) :
    bundleBlock rel c = ("// File: " ++ rel ++ "\n") ++ (ensureNL c ++ "\n") := by
  rw [bundleBlock, ensureNL]
  apply string_ext_data
  simp [String.data_append]

lemma data_append_nl (s : String) : (s ++ "\n").data = s.data ++ ['\n'] := by
  rw [String.data_append]

lemma append_empty_str (s : String) : s ++ "" = s := by
  apply string_ext_data
  rw [String.data_append]
  simp only [List.append_nil]

lemma endsWithNL_append_nl (s : String) : endsWithNL (s ++ "\n") = true := by
  rw [endsWithNL, data_append_nl]
  simp

lemma endsWithNL_ensureNL (c : String) : endsWithNL (ensureNL c) = true := by
  rw [ensureNL]
  rcases h : endsWithNL c with _ | _
  · simp only [h, Bool.false_eq_true, if_false]
    exact endsWithNL_append_nl c
  · simp only [h, if_true, append_empty_str]

lemma splitLinesK_marker_line (rel : String) (hcl : ∀ c ∈ rel.data, isLineBound c = false) :
    splitLinesK ("// File: " ++ rel ++ "\n") = ["// File: " ++ rel ++ "\n"] := by
  rw [splitLinesK]
  have hd : ("// File: " ++ rel ++ "\n").data = ("// File: " ++ rel).data ++ ['\n'] :=
    data_append_nl _
  rw [hd, singleLine_of_clean]
  · simp only [List.map_cons, List.map_nil, List.cons.injEq, and_true]
    exact string_ext_data (by rw [string_mk_data, data_append_nl])
  · intro c hc
    rw [String.data_append] at hc
    rcases List.mem_append.mp hc with h | h
    · fin_cases h <;> decide
    · exact hcl c h

lemma splitLinesK_block (rel c : String) (hcl : ∀ x ∈ rel.data, isLineBound x = false) :
    splitLinesK (bundleBlock rel c) =
      ("// File: " ++ rel ++ "\n") :: (splitLinesK (ensureNL c) ++ ["\n"]) := by
  rw [bundleBlock_decomp, splitLinesK_append _ (endsWithNL_append_nl _),
    splitLinesK_append _ (endsWithNL_ensureNL c), splitLinesK_marker_line rel hcl]
  have h1 : splitLinesK "\n" = ["\n"] := by decide
  rw [h1]
  simp

lemma marker_line_match (p : String) (hcl : ∀ c ∈ p.data, isLineBound c = false) :
    matchMarker (rstripCRLF ("// File: " ++ p ++ "\n")) = some (pyStrip p) := by
  have h1 : rstripCRLF ("// File: " ++ p ++ "\n") = "// File: " ++ p := by
    have hd : "// File: " ++ p ++ "\n" = String.mk (("// File: " ++ p).data ++ ['\n']) := by
      apply string_ext_data
      exact data_append_nl _
    rw [hd, rstripCRLF_clean_nl]
    · intro c hc
      rw [String.data_append] at hc
      rcases List.mem_append.mp hc with h | h
      · fin_cases h <;> decide
      · exact notLineBound_notCRLF (hcl c h)
  rw [h1]
  exact matchMarker_file_line p

/-! ## Splitter loop lemmas -/

lemma isMarkerLine_false_iff (raw : String) :
    isMarkerLine raw = false ↔ matchMarker (rstripCRLF raw) = none := by
  rw [isMarkerLine]
  cases matchMarker (rstripCRLF raw) <;> simp

lemma splitLoop_nil (cur : Option String) (buf : List String) :
    splitLoop [] cur buf = pyFlush cur buf := rfl

lemma splitLoop_cons_marker {raw g : String} (h : matchMarker (rstripCRLF raw) = some g)
    (rest : List String) (cur : Option String) (buf : List String) :
    splitLoop (raw :: rest) cur buf = pyFlush cur buf ++ splitLoop rest (some g) [] :=
  splitLoop.eq_2 buf raw rest cur g h

lemma splitLoop_cons_content {raw : String} (h : matchMarker (rstripCRLF raw) = none)
    (rest : List String) {p : String} (hp : p ≠ "") (buf : List String) :
    splitLoop (raw :: rest) (some p) buf = splitLoop rest (some p) (buf ++ [raw]) := by
  rw [splitLoop.eq_3 buf raw rest p h, if_pos hp]

lemma splitLoop_cons_falsy {raw : String} (h : matchMarker (rstripCRLF raw) = none)
    (rest : List String) (buf : List String) :
    splitLoop (raw :: rest) (some "") buf = splitLoop rest (some "") buf := by
  rw [splitLoop.eq_3 buf raw rest "" h]
  simp

lemma splitLoop_cons_none {raw : String} (h : matchMarker (rstripCRLF raw) = none)
    (rest : List String) (buf : List String) :
    splitLoop (raw :: rest) none buf = splitLoop rest none buf :=
  splitLoop.eq_4 buf raw rest h

lemma splitLoop_skip_none (ls Z : List String) (h : ∀ l ∈ ls, isMarkerLine l = false)
    (buf : List String) : splitLoop (ls ++ Z) none buf = splitLoop Z none buf := by
  induction ls with
  | nil => rfl
  | cons raw rest ih =>
    have hm : matchMarker (rstripCRLF raw) = none :=
      (isMarkerLine_false_iff raw).mp (h raw (List.mem_cons_self raw rest))
    rw [List.cons_append, splitLoop_cons_none hm]
    exact ih fun l hl => h l (List.mem_cons_of_mem raw hl)

lemma splitLoop_content (ls : List String) (h : ∀ l ∈ ls, isMarkerLine l = false)
    (Z : List String) {p : String} (hp : p ≠ "") (buf : List String) :
    splitLoop (ls ++ Z) (some p) buf = splitLoop Z (some p) (buf ++ ls) := by
  induction ls generalizing buf with
  | nil => simp
  | cons raw rest ih =>
    have hm : matchMarker (rstripCRLF raw) = none :=
      (isMarkerLine_false_iff raw).mp (h raw (List.mem_cons_self raw rest))
    rw [List.cons_append, splitLoop_cons_content hm _ hp,
      ih fun l hl => h l (List.mem_cons_of_mem raw hl)]
    simp

lemma splitLoop_false_path (ls : List String) (h : ∀ l ∈ ls, isMarkerLine l = false)
    (buf : List String) : splitLoop ls (some "") buf = [] := by
  induction ls generalizing buf with
  | nil =>
    rw [splitLoop_nil, pyFlush]
    simp
  | cons raw rest ih =>
    have hm : matchMarker (rstripCRLF raw) = none :=
      (isMarkerLine_false_iff raw).mp (h raw (List.mem_cons_self raw rest))
    rw [splitLoop_cons_falsy hm]
    exact ih (fun l hl => h l (List.mem_cons_of_mem raw hl)) buf

lemma splitLoop_blocks (fs : List (String × String))
    (hg : ∀ pc ∈ fs, goodPath pc.1 = true)
    (hc : ∀ pc ∈ fs, ∀ l ∈ splitLinesK (ensureNL pc.2), isMarkerLine l = false)
    (cur : Option String) (buf : List String) :
    splitLoop ((fs.map fun pc => splitLinesK (bundleBlock pc.1 pc.2)).flatten) cur buf =
      pyFlush cur buf ++ fs.map fun pc => (pc.1, ensureNL pc.2 ++ "\n") := by
  induction fs generalizing cur buf with
  | nil =>
    simp only [List.map_nil, List.flatten_nil, List.append_nil]
    exact splitLoop_nil cur buf
  | cons pc rest ih =>
    obtain ⟨hne, hstrip, hclean, hbs⟩ := goodPath_props (hg pc (List.mem_cons_self pc rest))
    have hblock := splitLinesK_block pc.1 pc.2 hclean
    simp only [List.map_cons, List.flatten_cons, hblock]
    have hmm : matchMarker (rstripCRLF ("// File: " ++ pc.1 ++ "\n")) = some pc.1 := by
      rw [marker_line_match pc.1 hclean, hstrip]
    have hcontent : ∀ l ∈ splitLinesK (ensureNL pc.2) ++ ["\n"], isMarkerLine l = false := by
      intro l hl
      rcases List.mem_append.mp hl with h | h
      · exact hc pc (List.mem_cons_self pc rest) l h
      · simp only [List.mem_singleton] at h
        subst h
        decide
    rw [List.cons_append, splitLoop_cons_marker hmm,
      splitLoop_content _ hcontent _ hne,
      ih (fun x hx => hg x (List.mem_cons_of_mem pc hx))
        (fun x hx => hc x (List.mem_cons_of_mem pc hx))]
    have hb2 : splitLinesK (ensureNL pc.2) ++ ["\n"] ≠ [] := by simp
    have hflush : pyFlush (some pc.1) ([] ++ (splitLinesK (ensureNL pc.2) ++ ["\n"])) =
        [(pc.1, ensureNL pc.2 ++ "\n")] := by
      rw [List.nil_append, pyFlush]
      simp only [ne_eq, hne, not_false_eq_true, hb2, and_self, if_true, reduceIte, true_and]
      rw [join_append, join_splitLinesK, join_singleton]
    rw [hflush]
    simp

lemma join_cons (x : String) (l : List String) :
    String.join (x :: l) = x ++ String.join l := by
  have h : x :: l = [x] ++ l := rfl
  rw [h, join_append, join_singleton]

lemma endsWithNL_bundleBlock (rel c : String) : endsWithNL (bundleBlock rel c) = true := by
  rw [bundleBlock]
  exact endsWithNL_append_nl _

lemma empty_append_str (s : String) : "" ++ s = s := by
  apply string_ext_data
  rw [String.data_append]
  rfl

lemma toSlash_id {p : String} (h : ∀ c ∈ p.data, c ≠ '\\') : toSlash p = p := by
  rw [toSlash]
  apply string_ext_data
  rw [string_mk_data]
  conv_rhs => rw [← List.map_id p.data]
  apply List.map_congr_left
  intro c hc
  simp [h c hc]

lemma splitLinesK_join_blocks (l : List (String × String)) :
    splitLinesK (String.join (l.map fun pc => bundleBlock pc.1 pc.2)) =
      (l.map fun pc => splitLinesK (bundleBlock pc.1 pc.2)).flatten := by
  induction l with
  | nil => rfl
  | cons pc rest ih =>
    simp only [List.map_cons, List.flatten_cons, join_cons]
    rw [splitLinesK_append _ (endsWithNL_bundleBlock pc.1 pc.2), ih]

/-- C1 (amended): bundling a list of files (well-formed stripped paths free
of line boundaries and backslashes; no content line, after newline
normalization, matches the marker pattern) and then splitting the resulting
bundle writes back, for each file in case-insensitive path order, its
content with a trailing newline appended when missing, plus exactly one
extra blank line — the Bundler's separator, which the Splitter cannot
distinguish from content.  The original claim's "byte-identical except for
one added trailing newline" fails: see `C1_roundtrip_counterexample`. -/
theorem C1_roundtrip_amended (files : List (String × String))
    (hg : ∀ pc ∈ files, goodPath pc.1 = true)
    (hc : ∀ pc ∈ files, ∀ l ∈ splitLinesK (ensureNL pc.2), isMarkerLine l = false) :
    split_by_marker (bundleText files) =
      (List.insertionSort (ciFstKey (α := String)) files).map
        fun pc => (pc.1, ensureNL pc.2 ++ "\n") := by
  rw [split_by_marker, bundleText]
  have hsub := (List.perm_insertionSort (ciFstKey (α := String)) files).subset
  have hg2 : ∀ pc ∈ List.insertionSort (ciFstKey (α := String)) files, goodPath pc.1 = true :=
    fun pc h => hg pc (hsub h)
  have hc2 : ∀ pc ∈ List.insertionSort (ciFstKey (α := String)) files,
      ∀ l ∈ splitLinesK (ensureNL pc.2), isMarkerLine l = false :=
    fun pc h => hc pc (hsub h)
  have hmap : (List.insertionSort (ciFstKey (α := String)) files).map
      (fun pc => bundleBlock (toSlash pc.1) pc.2) =
      (List.insertionSort (ciFstKey (α := String)) files).map
      (fun pc => bundleBlock pc.1 pc.2) := by
    apply List.map_congr_left
    intro pc h
    rw [toSlash_id (goodPath_props (hg2 pc h)).2.2.2]
  rw [hmap, splitLinesK_join_blocks, splitLoop_blocks _ hg2 hc2, pyFlush]
  rfl

theorem C1_roundtrip_witness :
    (∀ pc ∈ [("x.txt", "hello\n")], goodPath pc.1 = true) ∧
    (∀ pc ∈ [("x.txt", "hello\n")],
      ∀ l ∈ splitLinesK (ensureNL pc.2), isMarkerLine l = false) ∧
    split_by_marker (bundleText [("x.txt", "hello\n")]) =
      (List.insertionSort (ciFstKey (α := String)) [("x.txt", "hello\n")]).map
        fun pc => (pc.1, ensureNL pc.2 ++ "\n") :=
  ⟨by decide, by decide, C1_roundtrip_amended [("x.txt", "hello\n")] (by decide) (by decide)⟩

theorem C1_roundtrip_counterexample :
    split_by_marker (bundleText [("x.txt", "hello\n"), ("y.txt", "world")]) =
      [("x.txt", "hello\n\n"), ("y.txt", "world\n\n")] ∧
    split_by_marker (bundleText [("x.txt", "hello\n"), ("y.txt", "world")]) ≠
      [("x.txt", "hello\n"), ("y.txt", "world\n")] := by
  constructor
  · decide
  · decide

/-- C4 (amended): the Splitter discards all lines that precede the first
marker line; at end-of-input the final block is flushed only when the
marker's (stripped) path is truthy and at least one content line was
collected — a trailing marker with no following content lines produces no
file.  The original claim's "a file is written for the last marker even
when no content lines follow it" fails: see
`C4_split_flush_counterexample`. -/
theorem C4_split_flush_amended (pre p mid : String)
    (hpre : ∀ l ∈ splitLinesK pre, isMarkerLine l = false)
    (hpree : pre = "" ∨ endsWithNL pre = true)
    (hp : ∀ c ∈ p.data, isLineBound c = false)
    (hmid : ∀ l ∈ splitLinesK mid, isMarkerLine l = false) :
    split_by_marker (pre ++ ("// File: " ++ p ++ "\n") ++ mid) =
      if pyStrip p ≠ "" ∧ mid ≠ "" then [(pyStrip p, mid)] else [] := by
  rw [split_by_marker]
  have hlines : splitLinesK (pre ++ ("// File: " ++ p ++ "\n") ++ mid) =
      splitLinesK pre ++ (("// File: " ++ p ++ "\n") :: splitLinesK mid) := by
    have hassoc : pre ++ ("// File: " ++ p ++ "\n") ++ mid =
        pre ++ (("// File: " ++ p ++ "\n") ++ mid) := by
      apply string_ext_data
      simp [String.data_append]
    rw [hassoc]
    have hmidpart : splitLinesK (("// File: " ++ p ++ "\n") ++ mid) =
        ("// File: " ++ p ++ "\n") :: splitLinesK mid := by
      rw [splitLinesK_append _ (endsWithNL_append_nl _), splitLinesK_marker_line p hp]
      rfl
    rcases hpree with he | he
    · subst he
      rw [empty_append_str, hmidpart]
      have : splitLinesK "" = [] := rfl
      rw [this]
      rfl
    · rw [splitLinesK_append _ he, hmidpart]
  rw [hlines, splitLoop_skip_none _ _ hpre,
    splitLoop_cons_marker (marker_line_match p hp)]
  have hpf : pyFlush none [] = [] := rfl
  rw [hpf, List.nil_append]
  by_cases hps : pyStrip p = ""
  · rw [hps, splitLoop_false_path _ hmid]
    simp [hps]
  · have h2 : splitLinesK mid = [] ++ splitLinesK mid := rfl
    have h3 : splitLinesK mid = splitLinesK mid ++ [] := by simp
    rw [show splitLinesK mid = splitLinesK mid ++ [] by simp,
      splitLoop_content _ hmid _ hps, splitLoop_nil, pyFlush]
    simp only [List.nil_append, ne_eq, hps, not_false_eq_true, true_and]
    rcases hm : splitLinesK mid with _ | ⟨x, xs⟩
    · have : mid = "" := (splitLinesK_eq_nil_iff mid).mp hm
      simp [this]
    · have hmne : mid ≠ "" := by
        intro he
        subst he
        simp only [show splitLinesK "" = [] from rfl] at hm
        exact List.noConfusion hm
      have hjoin : String.join (x :: xs) = mid := by
        rw [← hm, join_splitLinesK]
      simp only [hmne, not_false_eq_true, and_true, if_true, reduceIte]
      simp [hjoin, hmne]

/-- C4 counterexample: a bundle consisting of exactly one marker line and
no content lines writes no file at all, refuting "a final block is always
flushed at end-of-input". -/
theorem C4_split_flush_counterexample :
    isMarkerLine "// File: a.txt" = true ∧ split_by_marker "// File: a.txt\n" = [] := by
  decide

theorem C4_split_flush_witness :
    (∀ l ∈ splitLinesK "junk\n", isMarkerLine l = false) ∧
    (∀ c ∈ ("a.txt" : String).data, isLineBound c = false) ∧
    (∀ l ∈ splitLinesK "payload\n", isMarkerLine l = false) ∧
    split_by_marker ("junk\n" ++ ("// File: " ++ "a.txt" ++ "\n") ++ "payload\n") =
      (if pyStrip "a.txt" ≠ "" ∧ ("payload\n" : String) ≠ "" then
        [(pyStrip "a.txt", "payload\n")] else []) :=
  ⟨by decide, by decide, by decide,
    C4_split_flush_amended "junk\n" "a.txt" "payload\n" (by decide) (Or.inr (by decide))
      (by decide) (by decide)⟩

/-- C5 counterexample: the line `  //File:a` — leading whitespace, no space
around `//` and `File:` — is treated as a block delimiter although it is
not of the exact form `// File: <relative path>`. -/
theorem C5_marker_counterexample :
    isMarkerLine "  //File:a" = true ∧ claimExactMarker "  //File:a" = false := by
  decide

/-- C5 (amended): the Splitter treats a line as a block delimiter iff,
after stripping trailing CR/LF, it consists of optional whitespace, `//`,
optional whitespace, `File:`, and at least one further character (the
captured path, subsequently stripped).  The original claim's "exact form
`// File: <relative path>` only" fails: see `C5_marker_counterexample`. -/
theorem C5_marker_characterization (raw : String) :
    isMarkerLine raw = true ↔
      ∃ w1 w2 rest : List Char,
        (rstripCRLF raw).data =
          w1 ++ '/' :: '/' :: (w2 ++ 'F' :: 'i' :: 'l' :: 'e' :: ':' :: rest) ∧
        (∀ c ∈ w1, isPySpace c = true) ∧ (∀ c ∈ w2, isPySpace c = true) ∧ rest ≠ [] := by
  rw [isMarkerLine]
  exact matchMarker_isSome_iff (rstripCRLF raw)

/-! ## Path segment algebra -/

lemma validName_props {n : String} (h : validName n = true) :
    n ≠ "" ∧ ∀ c ∈ n.data, c ≠ '/' ∧ c ≠ '\\' := by
  rw [validName] at h
  simp only [Bool.and_eq_true, List.all_eq_true, decide_eq_true_eq] at h
  refine ⟨?_, fun c hc => ?_⟩
  · intro he
    subst he
    exact absurd h.1 (by decide)
  · have := h.2 c hc
    simpa using this

lemma joinSegs_nil : joinSegs [] = "" := rfl

lemma joinSegs_singleton (s : String) : joinSegs [s] = s := rfl

lemma joinSegs_cons (s : String) {l : List String} (h : l ≠ []) :
    joinSegs (s :: l) = s ++ "/" ++ joinSegs l := by
  rcases l with _ | ⟨x, xs⟩
  · exact absurd rfl h
  · rfl

lemma joinSegs_append_both {b : List String} (a : List String) (ha : a ≠ []) (hb : b ≠ []) :
    joinSegs (a ++ b) = joinSegs a ++ "/" ++ joinSegs b := by
  induction a with
  | nil => exact absurd rfl ha
  | cons x xs ih =>
    rcases hxs : xs with _ | ⟨y, ys⟩
    · subst hxs
      rw [List.cons_append, List.nil_append, joinSegs_cons x hb, joinSegs_singleton]
    · subst hxs
      rw [List.cons_append, joinSegs_cons x (by simp), joinSegs_cons x (by simp),
        ih (by simp)]
      apply string_ext_data
      simp [String.data_append]

lemma data_ne_nil {s : String} (h : s ≠ "") : s.data ≠ [] := by
  intro hd
  apply h
  apply string_ext_data
  rw [hd]

lemma joinSegs_ne_empty {l : List String} (hne : l ≠ [])
    (hv : ∀ x ∈ l, validName x = true) : joinSegs l ≠ "" := by
  rcases l with _ | ⟨x, xs⟩
  · exact absurd rfl hne
  · have hx : x ≠ "" := (validName_props (hv x (by simp))).1
    rcases hxs : xs with _ | ⟨y, ys⟩
    · subst hxs
      rw [joinSegs_singleton]
      exact hx
    · subst hxs
      rw [joinSegs_cons x (by simp)]
      intro he
      have hd : (x ++ "/" ++ joinSegs (y :: ys)).data = [] := by
        rw [he]
      rw [String.data_append, String.data_append] at hd
      rcases hxd : x.data with _ | ⟨c, cs⟩
      · exact data_ne_nil hx hxd
      · rw [hxd] at hd
        exact List.noConfusion hd

lemma joinRel_joinSegs (pre : List String) (n : String)
    (hv : ∀ x ∈ pre, validName x = true) :
    joinRel (joinSegs pre) n = joinSegs (pre ++ [n]) := by
  rcases hp : pre with _ | ⟨x, xs⟩
  · rfl
  · subst hp
    rw [joinRel, if_neg (joinSegs_ne_empty (by simp) hv),
      joinSegs_append_both (x :: xs) (by simp) (by simp), joinSegs_singleton]

lemma slash_split_eq : ∀ (u v a b : List Char), (∀ c ∈ u, c ≠ '/') → (∀ c ∈ v, c ≠ '/') →
    u ++ '/' :: a = v ++ '/' :: b → u = v ∧ a = b := by
  intro u
  induction u with
  | nil =>
    intro v a b _ hv h
    rcases v with _ | ⟨d, v2⟩
    · simp only [List.nil_append] at h
      exact ⟨rfl, by injection h⟩
    · simp only [List.nil_append, List.cons_append] at h
      injection h with h1 h2
      exact absurd h1.symm (hv d (by simp))
  | cons c u2 ih =>
    intro v a b hu hv h
    rcases v with _ | ⟨d, v2⟩
    · simp only [List.cons_append, List.nil_append] at h
      injection h with h1 h2
      exact absurd h1 (hu c (by simp))
    · simp only [List.cons_append] at h
      injection h with h1 h2
      obtain ⟨h3, h4⟩ := ih v2 a b (fun x hx => hu x (by simp [hx]))
        (fun x hx => hv x (by simp [hx])) h2
      exact ⟨by rw [h1, h3], h4⟩

lemma joinSegs_data_cons (x : String) {xs : List String} (hxs : xs ≠ []) :
    (joinSegs (x :: xs)).data = x.data ++ '/' :: (joinSegs xs).data := by
  rw [joinSegs_cons x hxs, String.data_append, String.data_append]
  simp

lemma validName_no_slash {n : String} (h : validName n = true) : ∀ c ∈ n.data, c ≠ '/' :=
  fun c hc => ((validName_props h).2 c hc).1

lemma joinSegs_inj : ∀ (l1 l2 : List String), l1 ≠ [] → l2 ≠ [] →
    (∀ x ∈ l1, validName x = true) → (∀ x ∈ l2, validName x = true) →
    joinSegs l1 = joinSegs l2 → l1 = l2 := by
  intro l1
  induction l1 with
  | nil => intro l2 h1; exact absurd rfl h1
  | cons x xs ih =>
    intro l2 _ h2 hv1 hv2 heq
    rcases l2 with _ | ⟨y, ys⟩
    · exact absurd rfl h2
    · rcases hxs : xs with _ | ⟨x2, xs2⟩
      · rcases hys : ys with _ | ⟨y2, ys2⟩
        · subst hxs; subst hys
          rw [joinSegs_singleton, joinSegs_singleton] at heq
          rw [heq]
        · subst hxs; subst hys
          rw [joinSegs_singleton] at heq
          have hd : x.data = y.data ++ '/' :: (joinSegs (y2 :: ys2)).data := by
            rw [heq, joinSegs_data_cons y (by simp)]
          have : ('/' : Char) ∈ x.data := by
            rw [hd]
            simp
          exact absurd rfl (validName_no_slash (hv1 x (by simp)) '/' this)
      · rcases hys : ys with _ | ⟨y2, ys2⟩
        · subst hxs; subst hys
          rw [joinSegs_singleton] at heq
          have hd : y.data = x.data ++ '/' :: (joinSegs (x2 :: xs2)).data := by
            rw [← heq, joinSegs_data_cons x (by simp)]
          have : ('/' : Char) ∈ y.data := by
            rw [hd]
            simp
          exact absurd rfl (validName_no_slash (hv2 y (by simp)) '/' this)
        · subst hxs; subst hys
          have hd : x.data ++ '/' :: (joinSegs (x2 :: xs2)).data =
              y.data ++ '/' :: (joinSegs (y2 :: ys2)).data := by
            rw [← joinSegs_data_cons x (by simp), ← joinSegs_data_cons y (by simp), heq]
          obtain ⟨hxy, hrest⟩ := slash_split_eq x.data y.data _ _
            (validName_no_slash (hv1 x (by simp))) (validName_no_slash (hv2 y (by simp))) hd
          have hj : joinSegs (x2 :: xs2) = joinSegs (y2 :: ys2) := string_ext_data hrest
          have := ih (y2 :: ys2) (by simp) (by simp)
            (fun z hz => hv1 z (by simp [hz])) (fun z hz => hv2 z (by simp [hz])) hj
          rw [string_ext_data hxy, this]

lemma joinSegs_cancel {pre a b : List String} (ha : a ≠ []) (hb : b ≠ [])
    (hva : ∀ x ∈ pre ++ a, validName x = true) (hvb : ∀ x ∈ pre ++ b, validName x = true)
    (h : joinSegs (pre ++ a) = joinSegs (pre ++ b)) : a = b := by
  have := joinSegs_inj (pre ++ a) (pre ++ b) (by simp [ha]) (by simp [hb]) hva hvb h
  exact List.append_cancel_left this

lemma foldl_joinRel (segs : List String) : ∀ (pre : List String),
    (∀ x ∈ pre, validName x = true) → (∀ x ∈ segs, validName x = true) →
    List.foldl joinRel (joinSegs pre) segs = joinSegs (pre ++ segs) := by
  induction segs with
  | nil =>
    intro pre _ _
    simp
  | cons s ss ih =>
    intro pre hv hs
    rw [List.foldl_cons, joinRel_joinSegs pre s hv]
    have h2 := ih (pre ++ [s]) ?side (fun x hx => hs x (by simp [hx]))
    case side =>
      intro x hx
      rcases List.mem_append.mp hx with h | h
      · exact hv x h
      · simp only [List.mem_singleton] at h
        subst h
        exact hs x (by simp)
    rw [h2]
    simp

/-! ## Scan membership -/

lemma validForest_fcons {n : String} {d : FileData} {r : Forest}
    (h : ValidForest (.fcons n d r) = true) : validName n = true ∧ ValidForest r = true := by
  rw [ValidForest] at h
  simpa using h

lemma validForest_dcons {n : String} {cs r : Forest}
    (h : ValidForest (.dcons n cs r) = true) :
    validName n = true ∧ ValidForest cs = true ∧ ValidForest r = true := by
  rw [ValidForest] at h
  simp only [Bool.and_eq_true] at h
  exact ⟨h.1.1, h.1.2, h.2⟩

lemma validForest_dirsOf {f : Forest} (hf : ValidForest f = true) {n : String} {gs : Forest}
    (h : (n, gs) ∈ dirsOf f) : validName n = true ∧ ValidForest gs = true := by
  induction f with
  | nil => simp [dirsOf] at h
  | fcons m d r ih =>
    rw [dirsOf] at h
    exact ih (validForest_fcons hf).2 h
  | dcons m cs r ih1 ih2 =>
    rw [dirsOf, List.mem_cons] at h
    obtain ⟨hm, hcs, hr⟩ := validForest_dcons hf
    rcases h with h | h
    · injection h with h1 h2
      subst h1; subst h2
      exact ⟨hm, hcs⟩
    · exact ih2 hr h

lemma topFile_valid {f : Forest} (hf : ValidForest f = true) {n : String}
    (h : hasFileSegs f [] n = true) : validName n = true := by
  induction f with
  | nil => simp [hasFileSegs] at h
  | fcons m d r ih =>
    rw [hasFileSegs] at h
    simp only [List.isEmpty_nil, Bool.true_and, Bool.or_eq_true, beq_iff_eq] at h
    obtain ⟨hm, hr⟩ := validForest_fcons hf
    rcases h with h | h
    · subst h
      exact hm
    · exact ih hr h
  | dcons m cs r ih1 ih2 =>
    rw [hasFileSegs] at h
    simp only [Bool.or_eq_true] at h
    obtain ⟨hm, hcs, hr⟩ := validForest_dcons hf
    rcases h with h | h
    · exact absurd h (by simp)
    · exact ih2 hr h

lemma scanFiles_mem (R : Rules) (D : String) (f : Forest) (q : String) :
    q ∈ scanFiles R D f ↔
      ∃ n, hasFileSegs f [] n = true ∧ scanFileKeep R (joinRel D n) n = true ∧
        q = joinRel D n := by
  induction f with
  | nil => simp [scanFiles, hasFileSegs]
  | fcons m d r ih =>
    rw [scanFiles]
    constructor
    · intro h
      rcases List.mem_append.mp h with h | h
      · by_cases hk : scanFileKeep R (joinRel D m) m = true
        · rw [if_pos hk] at h
          simp only [List.mem_singleton] at h
          exact ⟨m, by simp [hasFileSegs], hk, h⟩
        · rw [if_neg hk] at h
          simp at h
      · obtain ⟨n, h1, h2, h3⟩ := ih.mp h
        refine ⟨n, ?_, h2, h3⟩
        rw [hasFileSegs]
        simp [h1]
    · rintro ⟨n, h1, h2, h3⟩
      rw [hasFileSegs] at h1
      simp only [List.isEmpty_nil, Bool.true_and, Bool.or_eq_true, beq_iff_eq] at h1
      rcases h1 with h1 | h1
      · subst h1
        apply List.mem_append.mpr
        left
        rw [if_pos h2, h3]
        simp
      · apply List.mem_append.mpr
        right
        exact ih.mpr ⟨n, h1, h2, h3⟩
  | dcons m cs r ih1 ih2 =>
    rw [scanFiles]
    constructor
    · intro h
      obtain ⟨n, h1, h2, h3⟩ := ih2.mp h
      refine ⟨n, ?_, h2, h3⟩
      rw [hasFileSegs]
      simp [h1]
    · rintro ⟨n, h1, h2, h3⟩
      rw [hasFileSegs] at h1
      simp only [Bool.or_eq_true] at h1
      rcases h1 with h1 | h1
      · exact absurd h1 (by simp)
      · exact ih2.mpr ⟨n, h1, h2, h3⟩

lemma scanSubs_mem (R : Rules) (D : String) (f : Forest) (q : String) :
    q ∈ scanSubs R D f ↔
      ∃ n gs, (n, gs) ∈ dirsOf f ∧ is_dir_relevant R (joinRel D n) = true ∧
        should_skip_dir R (joinRel D n) = false ∧
        q ∈ scanFiles R (joinRel D n) gs ++ scanSubs R (joinRel D n) gs := by
  induction f with
  | nil => simp [scanSubs, dirsOf]
  | fcons m d r ih =>
    rw [scanSubs, dirsOf]
    exact ih
  | dcons m cs r ih1 ih2 =>
    rw [scanSubs, dirsOf]
    constructor
    · intro h
      rcases List.mem_append.mp h with h | h
      · by_cases hrel : is_dir_relevant R (joinRel D m) = true
        · rw [if_pos hrel] at h
          by_cases hskip : should_skip_dir R (joinRel D m) = true
          · rw [if_pos hskip] at h
            simp at h
          · rw [if_neg hskip] at h
            exact ⟨m, cs, by simp, hrel, by simpa using hskip, h⟩
        · rw [if_neg hrel] at h
          simp at h
      · obtain ⟨n, gs, h1, h2, h3, h4⟩ := ih2.mp h
        exact ⟨n, gs, by simp [h1], h2, h3, h4⟩
    · rintro ⟨n, gs, h1, h2, h3, h4⟩
      rcases List.mem_cons.mp h1 with h1 | h1
      · injection h1 with h1a h1b
        subst h1a; subst h1b
        apply List.mem_append.mpr
        left
        rw [if_pos h2, if_neg (by simp [h3])]
        exact h4
      · apply List.mem_append.mpr
        right
        exact ih2.mpr ⟨n, gs, h1, h2, h3, h4⟩

lemma scan_shape (R : Rules) (f : Forest) (hf : ValidForest f = true) (D : String) (q : String)
    (h : q ∈ scanFiles R D f ++ scanSubs R D f) :
    ∃ segs : List String, segs ≠ [] ∧ (∀ x ∈ segs, validName x = true) ∧
      q = List.foldl joinRel D segs := by
  induction f generalizing D with
  | nil => simp [scanFiles, scanSubs] at h
  | fcons m d r ih =>
    rcases List.mem_append.mp h with h2 | h2
    · rw [scanFiles] at h2
      rcases List.mem_append.mp h2 with h3 | h3
      · by_cases hk : scanFileKeep R (joinRel D m) m = true
        · rw [if_pos hk] at h3
          simp only [List.mem_singleton] at h3
          exact ⟨[m], by simp, fun x hx => by
            simp only [List.mem_singleton] at hx
            subst hx
            exact (validForest_fcons hf).1, by simp [h3]⟩
        · rw [if_neg hk] at h3
          simp at h3
      · exact ih (validForest_fcons hf).2 D (List.mem_append.mpr (Or.inl h3))
    · rw [scanSubs] at h2
      exact ih (validForest_fcons hf).2 D (List.mem_append.mpr (Or.inr h2))
  | dcons m cs r ih1 ih2 =>
    obtain ⟨hm, hcs, hr⟩ := validForest_dcons hf
    rcases List.mem_append.mp h with h2 | h2
    · rw [scanFiles] at h2
      exact ih2 hr D (List.mem_append.mpr (Or.inl h2))
    · rw [scanSubs] at h2
      rcases List.mem_append.mp h2 with h3 | h3
      · by_cases hrel : is_dir_relevant R (joinRel D m) = true
        · rw [if_pos hrel] at h3
          by_cases hskip : should_skip_dir R (joinRel D m) = true
          · rw [if_pos hskip] at h3
            simp at h3
          · rw [if_neg hskip] at h3
            obtain ⟨segs, hs1, hs2, hs3⟩ := ih1 hcs (joinRel D m) h3
            refine ⟨m :: segs, by simp, ?_, ?_⟩
            · intro x hx
              rcases List.mem_cons.mp hx with hx | hx
              · subst hx
                exact hm
              · exact hs2 x hx
            · rw [List.foldl_cons]
              exact hs3
        · rw [if_neg hrel] at h3
          simp at h3
      · exact ih2 hr D (List.mem_append.mpr (Or.inr h3))

lemma hasFileSegs_cons_iff (f : Forest) (d : String) (ds : List String) (fname : String) :
    hasFileSegs f (d :: ds) fname = true ↔
      ∃ gs, (d, gs) ∈ dirsOf f ∧ hasFileSegs gs ds fname = true := by
  induction f with
  | nil => simp [hasFileSegs, dirsOf]
  | fcons m dd r ih =>
    rw [hasFileSegs, dirsOf]
    simp only [List.isEmpty_cons, Bool.false_and, Bool.false_or]
    exact ih
  | dcons m cs r ih1 ih2 =>
    rw [hasFileSegs, dirsOf]
    simp only [Bool.or_eq_true, Bool.and_eq_true, beq_iff_eq]
    constructor
    · intro h
      rcases h with ⟨h1, h2⟩ | h
      · subst h1
        exact ⟨cs, by simp, h2⟩
      · obtain ⟨gs, hg1, hg2⟩ := ih2.mp h
        exact ⟨gs, by simp [hg1], hg2⟩
    · rintro ⟨gs, hg1, hg2⟩
      rcases List.mem_cons.mp hg1 with hg1 | hg1
      · injection hg1 with ha hb
        subst ha; subst hb
        exact Or.inl ⟨rfl, hg2⟩
      · exact Or.inr (ih2.mpr ⟨gs, hg1, hg2⟩)

lemma scan_mem_aux (R : Rules) (dirs : List String) : ∀ (f : Forest) (pre : List String)
    (fname : String), ValidForest f = true → (∀ x ∈ pre, validName x = true) →
    (∀ x ∈ dirs, validName x = true) → validName fname = true →
    (joinSegs (pre ++ (dirs ++ [fname])) ∈
        scanFiles R (joinSegs pre) f ++ scanSubs R (joinSegs pre) f ↔
      hasFileSegs f dirs fname = true ∧
      scanFileKeep R (joinSegs (pre ++ (dirs ++ [fname]))) fname = true ∧
      ∀ k < dirs.length, is_dir_relevant R (joinSegs (pre ++ dirs.take (k + 1))) = true ∧
        should_skip_dir R (joinSegs (pre ++ dirs.take (k + 1))) = false) := by
  induction dirs with
  | nil =>
    intro f pre fname hf hpre _ hfn
    simp only [List.nil_append, List.length_nil, Nat.not_lt_zero, false_implies, implies_true,
      and_true]
    constructor
    · intro h
      rcases List.mem_append.mp h with h2 | h2
      · obtain ⟨n, htop, hkeep, heq⟩ := (scanFiles_mem R (joinSegs pre) f _).mp h2
        have hnv : validName n = true := topFile_valid hf htop
        rw [joinRel_joinSegs pre n hpre] at heq hkeep
        have hcan : ([fname] : List String) = [n] := by
          apply joinSegs_cancel (by simp) (by simp) ?hva ?hvb heq
          case hva =>
            intro x hx
            rcases List.mem_append.mp hx with hx | hx
            · exact hpre x hx
            · simp only [List.mem_singleton] at hx
              subst hx
              exact hfn
          case hvb =>
            intro x hx
            rcases List.mem_append.mp hx with hx | hx
            · exact hpre x hx
            · simp only [List.mem_singleton] at hx
              subst hx
              exact hnv
        injection hcan with hcan1
        subst hcan1
        exact ⟨htop, hkeep⟩
      · obtain ⟨n, gs, hdir, hrel, hskip, hmem⟩ := (scanSubs_mem R (joinSegs pre) f _).mp h2
        obtain ⟨hnv, hgv⟩ := validForest_dirsOf hf hdir
        rw [joinRel_joinSegs pre n hpre] at hmem
        obtain ⟨segs, hs1, hs2, hs3⟩ := scan_shape R gs hgv _ _ hmem
        rw [foldl_joinRel segs (pre ++ [n]) ?hpn hs2] at hs3
        case hpn =>
          intro x hx
          rcases List.mem_append.mp hx with hx | hx
          · exact hpre x hx
          · simp only [List.mem_singleton] at hx
            subst hx
            exact hnv
        exfalso
        have hs3b : joinSegs (pre ++ [fname]) = joinSegs (pre ++ (n :: segs)) := by
          rw [hs3]
          congr 1
          simp
        have hcan : [fname] = n :: segs := by
          apply joinSegs_cancel (by simp) (by simp) ?hva2 ?hvb2 hs3b
          case hva2 =>
            intro x hx
            rcases List.mem_append.mp hx with hx | hx
            · exact hpre x hx
            · simp only [List.mem_singleton] at hx
              subst hx
              exact hfn
          case hvb2 =>
            intro x hx
            rcases List.mem_append.mp hx with hx | hx
            · exact hpre x hx
            · rcases List.mem_cons.mp hx with hx | hx
              · subst hx
                exact hnv
              · exact hs2 x hx
        injection hcan with h1 h2
        exact hs1 h2.symm
    · rintro ⟨hfile, hkeep⟩
      apply List.mem_append.mpr
      left
      apply (scanFiles_mem R (joinSegs pre) f _).mpr
      refine ⟨fname, hfile, ?_, ?_⟩
      · rw [joinRel_joinSegs pre fname hpre]
        exact hkeep
      · rw [joinRel_joinSegs pre fname hpre]
  | cons d ds ih =>
    intro f pre fname hf hpre hdirs hfn
    have hdv : validName d = true := hdirs d (by simp)
    have hdsv : ∀ x ∈ ds, validName x = true := fun x hx => hdirs x (by simp [hx])
    have hvpd : ∀ x ∈ pre ++ [d], validName x = true := by
      intro x hx
      rcases List.mem_append.mp hx with hx | hx
      · exact hpre x hx
      · simp only [List.mem_singleton] at hx
        subst hx
        exact hdv
    have hassoc : pre ++ d :: (ds ++ [fname]) = (pre ++ [d]) ++ (ds ++ [fname]) := by simp
    simp only [List.cons_append]
    constructor
    · intro h
      rcases List.mem_append.mp h with h2 | h2
      · exfalso
        obtain ⟨n, htop, hkeep, heq⟩ := (scanFiles_mem R (joinSegs pre) f _).mp h2
        have hnv : validName n = true := topFile_valid hf htop
        rw [joinRel_joinSegs pre n hpre] at heq
        have hcan : (d :: ds ++ [fname]) = [n] := by
          apply joinSegs_cancel (by simp) (by simp) ?hva3 ?hvb3 heq
          case hva3 =>
            intro x hx
            rcases List.mem_append.mp hx with hx | hx
            · exact hpre x hx
            · rcases List.mem_cons.mp hx with hx | hx
              · subst hx
                exact hdv
              · rcases List.mem_append.mp hx with hx | hx
                · exact hdsv x hx
                · simp only [List.mem_singleton] at hx
                  subst hx
                  exact hfn
          case hvb3 =>
            intro x hx
            rcases List.mem_append.mp hx with hx | hx
            · exact hpre x hx
            · simp only [List.mem_singleton] at hx
              subst hx
              exact hnv
        have h22 : ds ++ [fname] = [] := by injection hcan with h1 h2
        exact absurd h22 (by simp)
      · obtain ⟨n, gs, hdir, hrel, hskip, hmem⟩ := (scanSubs_mem R (joinSegs pre) f _).mp h2
        obtain ⟨hnv, hgv⟩ := validForest_dirsOf hf hdir
        rw [joinRel_joinSegs pre n hpre] at hmem hrel hskip
        obtain ⟨segs, hs1, hs2, hs3⟩ := scan_shape R gs hgv _ _ hmem
        rw [foldl_joinRel segs (pre ++ [n]) ?hpn2 hs2] at hs3
        case hpn2 =>
          intro x hx
          rcases List.mem_append.mp hx with hx | hx
          · exact hpre x hx
          · simp only [List.mem_singleton] at hx
            subst hx
            exact hnv
        have hs3b : joinSegs (pre ++ (d :: (ds ++ [fname]))) = joinSegs (pre ++ (n :: segs)) := by
          rw [hs3]
          congr 1
          simp
        have hcan : d :: (ds ++ [fname]) = n :: segs := by
          apply joinSegs_cancel (by simp) (by simp) ?hva4 ?hvb4 hs3b
          case hva4 =>
            intro x hx
            rcases List.mem_append.mp hx with hx | hx
            · exact hpre x hx
            · rcases List.mem_cons.mp hx with hx | hx
              · subst hx
                exact hdv
              · rcases List.mem_append.mp hx with hx | hx
                · exact hdsv x hx
                · simp only [List.mem_singleton] at hx
                  subst hx
                  exact hfn
          case hvb4 =>
            intro x hx
            rcases List.mem_append.mp hx with hx | hx
            · exact hpre x hx
            · rcases List.mem_cons.mp hx with hx | hx
              · subst hx
                exact hnv
              · exact hs2 x hx
        injection hcan with hc1 hc2
        subst hc1
        subst hc2
        have hmem2 : joinSegs ((pre ++ [d]) ++ (ds ++ [fname])) ∈
            scanFiles R (joinSegs (pre ++ [d])) gs ++ scanSubs R (joinSegs (pre ++ [d])) gs := by
          rw [← hassoc]
          exact hmem
        have hih := (ih gs (pre ++ [d]) fname hgv hvpd hdsv hfn).mp hmem2
        obtain ⟨hih1, hih2, hih3⟩ := hih
        refine ⟨(hasFileSegs_cons_iff f d ds fname).mpr ⟨gs, hdir, hih1⟩, ?_, ?_⟩
        · rw [hassoc]
          exact hih2
        · intro k hk
          rcases k with _ | k2
          · simp only [List.take_succ_cons, List.take_zero]
            constructor
            · rw [show pre ++ [d] = pre ++ ([d] : List String) from rfl] at hrel
              simpa using hrel
            · simpa using hskip
          · have hk2 : k2 < ds.length := by
              simp only [List.length_cons] at hk
              omega
            have := hih3 k2 hk2
            simp only [List.take_succ_cons]
            have heq2 : pre ++ d :: ds.take (k2 + 1) = (pre ++ [d]) ++ ds.take (k2 + 1) := by
              simp
            rw [heq2]
            exact this
    · rintro ⟨hfile, hkeep, hlev⟩
      obtain ⟨gs, hdir, hfile2⟩ := (hasFileSegs_cons_iff f d ds fname).mp hfile
      obtain ⟨hnv, hgv⟩ := validForest_dirsOf hf hdir
      have h0 := hlev 0 (by simp)
      simp only [List.take_succ_cons, List.take_zero] at h0
      have hlev2 : ∀ k < ds.length, is_dir_relevant R (joinSegs ((pre ++ [d]) ++ ds.take (k + 1))) = true ∧
          should_skip_dir R (joinSegs ((pre ++ [d]) ++ ds.take (k + 1))) = false := by
        intro k hk
        have := hlev (k + 1) (by simp; omega)
        simp only [List.take_succ_cons] at this
        have heq2 : pre ++ d :: ds.take (k + 1) = (pre ++ [d]) ++ ds.take (k + 1) := by simp
        rw [heq2] at this
        exact this
      have hih := (ih gs (pre ++ [d]) fname hgv hvpd hdsv hfn).mpr
        ⟨hfile2, by rw [← hassoc]; exact hkeep, hlev2⟩
      apply List.mem_append.mpr
      right
      apply (scanSubs_mem R (joinSegs pre) f _).mpr
      refine ⟨d, gs, hdir, ?_, ?_, ?_⟩
      · rw [joinRel_joinSegs pre d hpre]
        simpa using h0.1
      · rw [joinRel_joinSegs pre d hpre]
        simpa using h0.2
      · rw [joinRel_joinSegs pre d hpre, ← hassoc] at *
        rw [hassoc] at hih ⊢
        exact hih

lemma is_dir_relevant_empty (R : Rules) : is_dir_relevant R "" = true := by
  rw [is_dir_relevant]
  rcases h : R.includePatterns.isEmpty with _ | _
  · simp only [h, Bool.false_eq_true, if_false]
    have : rstripSlashes "" = "" := rfl
    rw [this]
    simp
  · simp [h]

lemma infix_extend {l x : List Char} (y : List Char) (h : l <:+: x) : l <:+: x ++ y := by
  obtain ⟨s, t, hst⟩ := h
  exact ⟨s, t ++ y, by rw [← hst]; simp⟩

lemma toSlash_append (s t : String) : toSlash (s ++ t) = toSlash s ++ toSlash t := by
  apply string_ext_data
  rw [toSlash, toSlash, toSlash, mk_append]
  simp [String.data_append]

lemma skip_extend (R : Rules) (a b : List String) (h : should_skip_dir R (joinSegs a) = true) :
    should_skip_dir R (joinSegs (a ++ b)) = true := by
  rw [should_skip_dir] at h ⊢
  simp only [List.any_eq_true] at h ⊢
  obtain ⟨pat, hmem, hinf⟩ := h
  refine ⟨pat, hmem, ?_⟩
  simp only [strIn, decide_eq_true_eq] at hinf ⊢
  rcases ha : a with _ | ⟨x, xs⟩
  · subst ha
    have hnil : (toSlash (joinSegs ([] : List String))).data = [] := rfl
    rw [hnil] at hinf
    have hp0 : pat.data = [] := List.eq_nil_of_infix_nil hinf
    rw [hp0]
    exact ⟨[], (toSlash (joinSegs (([] : List String) ++ b))).data, by simp⟩
  · subst ha
    rcases hb : b with _ | ⟨y, ys⟩
    · simpa using hinf
    · rw [joinSegs_append_both (x :: xs) (by simp) (by simp [hb]), toSlash_append,
        String.data_append]
      rw [toSlash_append, String.data_append, List.append_assoc]
      exact infix_extend _ hinf

lemma scan_mem (R : Rules) (root : Forest) (dirs : List String) (fname : String)
    (hroot : ValidForest root = true) (hdirs : ∀ x ∈ dirs, validName x = true)
    (hfn : validName fname = true) (hskip0 : should_skip_dir R "" = false) :
    joinSegs (dirs ++ [fname]) ∈ scan_target_files R root ↔
      hasFileSegs root dirs fname = true ∧
      scanFileKeep R (joinSegs (dirs ++ [fname])) fname = true ∧
      ∀ k < dirs.length, is_dir_relevant R (joinSegs (dirs.take (k + 1))) = true ∧
        should_skip_dir R (joinSegs (dirs.take (k + 1))) = false := by
  unfold scan_target_files
  rw [if_pos (is_dir_relevant_empty R), if_neg (by rw [hskip0]; exact Bool.false_ne_true)]
  have hje : joinSegs ([] : List String) = "" := rfl
  have := scan_mem_aux R dirs root [] fname hroot (by simp) hdirs hfn
  rw [hje] at this
  simpa using this

/-- C2 (corrected): the Walker's output contains a relative file path iff the
file exists at that path and the path passes the code's actual filters: the
per-file check (extension allow-list, filename exclusion, include patterns on
the full relative path) together with, at every ancestor directory level, the
include-pattern relevance check and the absence of a directory-exclusion
substring match.  The claim's "no path segment contains an exclusion pattern
as a substring" predicate is not what the code tests: exclusion is a substring
test on whole relative *directory* paths, never applied to the file's own
name (see the counterexample). -/
theorem C2_filter_amended (R : Rules) (root : Forest) (dirs : List String) (fname : String)
    (hroot : ValidForest root = true) (hdirs : ∀ x ∈ dirs, validName x = true)
    (hfn : validName fname = true) (hskip0 : should_skip_dir R "" = false) :
    joinSegs (dirs ++ [fname]) ∈ scan_target_files R root ↔
      hasFileSegs root dirs fname = true ∧
      scanFileKeep R (joinSegs (dirs ++ [fname])) fname = true ∧
      ∀ k < dirs.length, is_dir_relevant R (joinSegs (dirs.take (k + 1))) = true ∧
        should_skip_dir R (joinSegs (dirs.take (k + 1))) = false :=
  scan_mem R root dirs fname hroot hdirs hfn hskip0

theorem C2_filter_witness :
    joinSegs (["src"] ++ ["app.ts"]) ∈
        scan_target_files ⟨[".ts"], ["node_modules"], [], []⟩
          (.dcons "src" (.fcons "app.ts" (.ok "") .nil) .nil) ↔
      hasFileSegs (.dcons "src" (.fcons "app.ts" (.ok "") .nil) .nil) ["src"] "app.ts" = true ∧
      scanFileKeep ⟨[".ts"], ["node_modules"], [], []⟩
          (joinSegs (["src"] ++ ["app.ts"])) "app.ts" = true ∧
      ∀ k < (["src"] : List String).length,
        is_dir_relevant ⟨[".ts"], ["node_modules"], [], []⟩
            (joinSegs ((["src"] : List String).take (k + 1))) = true ∧
          should_skip_dir ⟨[".ts"], ["node_modules"], [], []⟩
            (joinSegs ((["src"] : List String).take (k + 1))) = false :=
  C2_filter_amended ⟨[".ts"], ["node_modules"], [], []⟩
    (.dcons "src" (.fcons "app.ts" (.ok "") .nil) .nil) ["src"] "app.ts"
    (by decide) (by decide) (by decide) (by decide)

theorem C2_filter_counterexample :
    ("node_modulesX.ts" : String) ∈
        scan_target_files ⟨[".ts"], ["node_modules"], [], []⟩
          (.fcons "node_modulesX.ts" (.ok "") .nil) ∧
      claimFourPreds ⟨[".ts"], ["node_modules"], [], []⟩ "node_modulesX.ts" = false := by
  decide

/-- C8 (confirmed): no file below an excluded directory is ever selected:
if some ancestor directory prefix of the file's relative path is matched by a
directory-exclusion pattern (`should_skip_dir`), the file's path is absent
from the Walker's output, whatever its extension. -/
theorem C8_excluded_dirs (R : Rules) (root : Forest) (dirs : List String) (fname : String)
    (j : Nat) (hj : j < dirs.length)
    (hskip : should_skip_dir R (joinSegs (dirs.take (j + 1))) = true)
    (hroot : ValidForest root = true) (hdirs : ∀ x ∈ dirs, validName x = true)
    (hfn : validName fname = true) :
    joinSegs (dirs ++ [fname]) ∉ scan_target_files R root := by
  intro hmem
  unfold scan_target_files at hmem
  by_cases h1 : is_dir_relevant R "" = true
  · rw [if_pos h1] at hmem
    by_cases h2 : should_skip_dir R "" = true
    · rw [if_pos h2] at hmem
      exact absurd hmem (List.not_mem_nil _)
    · rw [if_neg h2] at hmem
      have hje : joinSegs ([] : List String) = "" := rfl
      have haux := scan_mem_aux R dirs root [] fname hroot (by simp) hdirs hfn
      rw [hje] at haux
      simp only [List.nil_append] at haux
      obtain ⟨-, -, hlev⟩ := haux.mp hmem
      have hf : should_skip_dir R (joinSegs (dirs.take (j + 1))) = false := (hlev j hj).2
      rw [hskip] at hf
      exact absurd hf (by decide)
  · rw [if_neg h1] at hmem
    exact absurd hmem (List.not_mem_nil _)

theorem C8_excluded_dirs_witness :
    (0 : Nat) < (["node_modules"] : List String).length ∧
      joinSegs (["node_modules"] ++ ["c.json"]) ∉
        scan_target_files ⟨[".json"], ["node_modules"], [], []⟩
          (.dcons "node_modules" (.fcons "c.json" (.ok "") .nil) .nil) :=
  ⟨by decide,
    C8_excluded_dirs ⟨[".json"], ["node_modules"], [], []⟩
      (.dcons "node_modules" (.fcons "c.json" (.ok "") .nil) .nil) ["node_modules"] "c.json"
      0 (by decide) (by decide) (by decide) (by decide) (by decide)⟩

lemma globMatch_cons_lit (c : Char) (ps s : List Char) (h1 : c ≠ '*') (h2 : c ≠ '?') :
    globMatch (c :: ps) s =
      match s with
      | [] => false
      | d :: t => d == c && globMatch ps t := by
  rw [globMatch.eq_def]
  rcases s with _ | ⟨d, t⟩ <;> simp [h1, h2]

lemma globMatch_double_star (s : List Char) : globMatch ['*', '*'] s = true := by
  rw [globMatch]
  apply List.any_eq_true.mpr
  refine ⟨[], ?_, ?_⟩
  · exact (List.mem_tails _ _).mpr (List.nil_suffix)
  · rw [globMatch]
    apply List.any_eq_true.mpr
    exact ⟨[], (List.mem_tails _ _).mpr List.nil_suffix, rfl⟩

lemma globMatch_lit (p : List Char) (hp : ∀ c ∈ p, c ≠ '*' ∧ c ≠ '?') :
    ∀ s : List Char, (globMatch p s = true ↔ s = p) := by
  induction p with
  | nil =>
    intro s
    rw [globMatch]
    simp [List.isEmpty_iff]
  | cons c cs ih =>
    intro s
    have hc := hp c (by simp)
    rw [globMatch_cons_lit c cs s hc.1 hc.2]
    rcases s with _ | ⟨d, t⟩
    · simp
    · simp only [Bool.and_eq_true, beq_iff_eq, List.cons.injEq]
      rw [ih (fun x hx => hp x (by simp [hx])) t]

lemma globMatch_lit_stars (p : List Char) (hp : ∀ c ∈ p, c ≠ '*' ∧ c ≠ '?') :
    ∀ s : List Char, (globMatch (p ++ ['*', '*']) s = true ↔ p <+: s) := by
  induction p with
  | nil =>
    intro s
    simp [globMatch_double_star]
  | cons c cs ih =>
    intro s
    have hc := hp c (by simp)
    rw [List.cons_append, globMatch_cons_lit c (cs ++ ['*', '*']) s hc.1 hc.2]
    rcases s with _ | ⟨d, t⟩
    · simp
    · simp only [Bool.and_eq_true, beq_iff_eq, List.cons_prefix_cons]
      rw [ih (fun x hx => hp x (by simp [hx])) t]
      constructor
      · rintro ⟨h1, h2⟩; exact ⟨h1.symm, h2⟩
      · rintro ⟨h1, h2⟩; exact ⟨h1.symm, h2⟩

lemma slash_prefix_split (u v a b : List Char) (hu : ∀ c ∈ u, c ≠ '/')
    (hv : ∀ c ∈ v, c ≠ '/') (h : u ++ '/' :: a <+: v ++ '/' :: b) :
    u = v ∧ a <+: b := by
  obtain ⟨t, ht⟩ := h
  rw [List.append_assoc, List.cons_append] at ht
  obtain ⟨h1, h2⟩ := slash_split_eq u v (a ++ t) b hu hv ht
  exact ⟨h1, ⟨t, h2⟩⟩

lemma plainSeg_valid {s : String} (h : plainSeg s = true) : validName s = true := by
  rw [plainSeg, Bool.and_eq_true] at h
  exact h.1

lemma joinSegs_reverse_head : ∀ (a : List String), a ≠ [] →
    (∀ x ∈ a, validName x = true) →
    ∃ c l, (joinSegs a).data.reverse = c :: l ∧ c ≠ '/' ∧ c ≠ '\\' := by
  intro a
  induction a with
  | nil => intro h; exact absurd rfl h
  | cons x xs ih =>
    intro _ hv
    rcases hxs : xs with _ | ⟨y, ys⟩
    · have hx := validName_props (hv x (by simp))
      rcases hd : x.data.reverse with _ | ⟨c, l⟩
      · exfalso
        have : x.data = [] := by
          have := congrArg List.reverse hd
          simpa using this
        exact hx.1 (string_ext_data this)
      · refine ⟨c, l, ?_, ?_, ?_⟩
        · rw [joinSegs_singleton, hd]
        · have hc : c ∈ x.data := by
            rw [← List.mem_reverse, hd]
            simp
          exact (hx.2 c hc).1
        · have hc : c ∈ x.data := by
            rw [← List.mem_reverse, hd]
            simp
          exact (hx.2 c hc).2
    · subst hxs
      obtain ⟨c, l, h1, h2, h3⟩ := ih (by simp) (fun z hz => hv z (by simp [hz]))
      refine ⟨c, l ++ '/' :: x.data.reverse, ?_, h2, h3⟩
      rw [joinSegs_data_cons x (by simp), List.reverse_append, List.reverse_cons,
        List.append_assoc, h1]
      simp

lemma rstripSlashes_joinSegs (a : List String) (ha : a ≠ [])
    (hv : ∀ x ∈ a, validName x = true) : rstripSlashes (joinSegs a) = joinSegs a := by
  obtain ⟨c, l, h1, h2, h3⟩ := joinSegs_reverse_head a ha hv
  have hdata : (joinSegs a).data = (c :: l).reverse := by
    have := congrArg List.reverse h1
    simpa using this
  apply string_ext_data
  rw [rstripSlashes, h1]
  simp only [List.dropWhile_cons]
  have hd : decide (c = '/' ∨ c = '\\') = false := by
    simp [h2, h3]
  rw [hd]
  simp only [Bool.false_eq_true, if_false]
  rw [hdata]

lemma joinSegs_chars_plain (a : List String) (hv : ∀ x ∈ a, plainSeg x = true) :
    ∀ c ∈ (joinSegs a).data, c ≠ '*' ∧ c ≠ '?' := by
  induction a with
  | nil => intro c hc; exact absurd hc (by simp [show (joinSegs []).data = [] from rfl])
  | cons x xs ih =>
    have hx : ∀ c ∈ x.data, c ≠ '*' ∧ c ≠ '?' := by
      intro c hc
      have := hv x (by simp)
      rw [plainSeg, Bool.and_eq_true, List.all_eq_true] at this
      have h2 := this.2 c hc
      simp only [decide_eq_true_eq] at h2
      exact ⟨h2.1, h2.2.1⟩
    rcases hxs : xs with _ | ⟨y, ys⟩
    · intro c hc
      rw [joinSegs_singleton] at hc
      exact hx c hc
    · subst hxs
      intro c hc
      rw [joinSegs_data_cons x (by simp)] at hc
      rcases List.mem_append.mp hc with hc | hc
      · exact hx c hc
      · rcases List.mem_cons.mp hc with hc | hc
        · subst hc
          exact ⟨by decide, by decide⟩
        · exact ih (fun z hz => hv z (by simp [hz])) c hc

lemma segs_of_slash_prefix : ∀ (qs xs : List String), qs ≠ [] → xs ≠ [] →
    (∀ x ∈ qs, validName x = true) → (∀ x ∈ xs, validName x = true) →
    (joinSegs qs ++ "/").data <+: (joinSegs xs).data →
    ∃ rest, rest ≠ [] ∧ xs = qs ++ rest := by
  intro qs
  induction qs with
  | nil => intro xs h; exact absurd rfl h
  | cons q qs2 ih =>
    intro xs _ hxs hvq hvx h
    rcases xs with _ | ⟨x, xs2⟩
    · exact absurd rfl hxs
    · have hqv := validName_props (hvq q (by simp))
      have hxv := validName_props (hvx x (by simp))
      rcases hqs2 : qs2 with _ | ⟨q2, qs3⟩
      · subst hqs2
        rcases hxs2 : xs2 with _ | ⟨x2, xs3⟩
        · subst hxs2
          exfalso
          rw [joinSegs_singleton, joinSegs_singleton, String.data_append] at h
          have hslash : ('/' : Char) ∈ x.data := by
            apply h.subset
            simp [show ("/" : String).data = ['/'] from rfl]
          exact ((validName_props (hvx x (by simp))).2 '/' hslash).1 rfl
        · subst hxs2
          rw [joinSegs_singleton, String.data_append,
            show ("/" : String).data = ['/'] from rfl,
            joinSegs_data_cons x (by simp)] at h
          have h2 : q.data ++ '/' :: ([] : List Char) <+:
              x.data ++ '/' :: (joinSegs (x2 :: xs3)).data := by
            simpa using h
          obtain ⟨heq, -⟩ := slash_prefix_split q.data x.data [] _
            (fun c hc => (hqv.2 c hc).1) (fun c hc => (hxv.2 c hc).1) h2
          refine ⟨x2 :: xs3, by simp, ?_⟩
          rw [show q = x from string_ext_data heq]
          simp
      · subst hqs2
        rcases hxs2 : xs2 with _ | ⟨x2, xs3⟩
        · exfalso
          subst hxs2
          rw [joinSegs_singleton] at h
          have hslash : ('/' : Char) ∈ x.data := by
            apply h.subset
            rw [String.data_append, joinSegs_data_cons q (by simp)]
            simp
          exact (hxv.2 '/' hslash).1 rfl
        · subst hxs2
          have hdq : (joinSegs (q :: q2 :: qs3) ++ "/").data =
              q.data ++ '/' :: (joinSegs (q2 :: qs3) ++ "/").data := by
            rw [String.data_append, joinSegs_data_cons q (by simp), String.data_append]
            simp
          rw [hdq, joinSegs_data_cons x (by simp)] at h
          obtain ⟨heq, hpre⟩ := slash_prefix_split q.data x.data _ _
            (fun c hc => (hqv.2 c hc).1) (fun c hc => (hxv.2 c hc).1) h
          obtain ⟨rest, hr1, hr2⟩ := ih (x2 :: xs3) (by simp) (by simp)
            (fun z hz => hvq z (by simp [hz])) (fun z hz => hvx z (by simp [hz])) hpre
          refine ⟨rest, hr1, ?_⟩
          rw [show q = x from string_ext_data heq, List.cons_append, ← hr2]

lemma proper_prefix_decomp {a b : List String} (h : a <+: b) (h2 : a.length < b.length) :
    ∃ t, t ≠ [] ∧ b = a ++ t := by
  obtain ⟨t, ht⟩ := h
  refine ⟨t, ?_, ht.symm⟩
  rintro rfl
  rw [List.append_nil] at ht
  subst ht
  exact absurd h2 (lt_irrefl _)

lemma joinSegs_slash_prefix (a t : List String) (ha : a ≠ []) (ht : t ≠ []) :
    (joinSegs a ++ "/").data ++ (joinSegs t).data = (joinSegs (a ++ t)).data := by
  rw [joinSegs_append_both a ha ht]
  simp [String.data_append]

lemma relevant_level_lit (qs xs a : List String) (hq : qs ≠ []) (ha : a ≠ [])
    (hplq : ∀ x ∈ qs, plainSeg x = true) (hvx : ∀ x ∈ xs, validName x = true)
    (hmatch : fnmatch (joinSegs xs) (joinSegs qs) = true)
    (hpre : a <+: xs) (hlen : a.length < xs.length) :
    (joinSegs a ++ "/").data <+: (joinSegs qs).data := by
  have hxq : xs = qs := by
    have hlit := (globMatch_lit (joinSegs qs).data
      (joinSegs_chars_plain qs hplq) (joinSegs xs).data).mp hmatch
    have hxne : xs ≠ [] := by
      rintro rfl
      simp at hlen
    exact joinSegs_inj xs qs hxne hq hvx (fun x hx => plainSeg_valid (hplq x hx))
      (string_ext_data hlit)
  subst hxq
  obtain ⟨t, htne, hdec⟩ := proper_prefix_decomp hpre hlen
  subst hdec
  exact ⟨(joinSegs t).data, joinSegs_slash_prefix a t ha htne⟩

lemma stars_data (q : String) : (q ++ "/**").data = (q ++ "/").data ++ ['*', '*'] := by
  simp [String.data_append]

lemma slash_chars_plain (qs : List String) (hplq : ∀ x ∈ qs, plainSeg x = true) :
    ∀ c ∈ (joinSegs qs ++ "/").data, c ≠ '*' ∧ c ≠ '?' := by
  intro c hc
  rw [String.data_append] at hc
  rcases List.mem_append.mp hc with hc | hc
  · exact joinSegs_chars_plain qs hplq c hc
  · have : c = '/' := by
      have hd : ("/" : String).data = ['/'] := rfl
      rw [hd] at hc
      simpa using hc
    subst this
    exact ⟨by decide, by decide⟩

lemma fnmatch_stars_iff (qs : List String) (s : String)
    (hplq : ∀ x ∈ qs, plainSeg x = true) :
    fnmatch s (joinSegs qs ++ "/**") = true ↔ (joinSegs qs ++ "/").data <+: s.data := by
  rw [fnmatch, stars_data]
  exact globMatch_lit_stars (joinSegs qs ++ "/").data (slash_chars_plain qs hplq) s.data

lemma relevant_level_stars (qs xs a : List String) (hq : qs ≠ []) (ha : a ≠ [])
    (hxne : xs ≠ [])
    (hplq : ∀ x ∈ qs, plainSeg x = true) (hvx : ∀ x ∈ xs, validName x = true)
    (hmatch : fnmatch (joinSegs xs) (joinSegs qs ++ "/**") = true)
    (hpre : a <+: xs) :
    fnmatch (joinSegs a) (joinSegs qs ++ "/**") = true ∨
      (joinSegs a ++ "/").data <+: (joinSegs qs ++ "/").data := by
  have hsp := (fnmatch_stars_iff qs (joinSegs xs) hplq).mp hmatch
  obtain ⟨rest, hrne, hxeq⟩ := segs_of_slash_prefix qs xs hq hxne
    (fun x hx => plainSeg_valid (hplq x hx)) hvx hsp
  have hqpre : qs <+: xs := by
    rw [hxeq]
    exact List.prefix_append qs rest
  rcases List.prefix_or_prefix_of_prefix hpre hqpre with hcase | hcase
  · right
    by_cases hlen : a.length < qs.length
    · obtain ⟨t, htne, hdec⟩ := proper_prefix_decomp hcase hlen
      subst hdec
      refine ⟨((joinSegs t).data ++ ("/" : String).data), ?_⟩
      rw [← List.append_assoc, joinSegs_slash_prefix a t ha htne, ← String.data_append]
    · have haq : a = qs := by
        have := List.IsPrefix.length_le hcase
        exact List.IsPrefix.eq_of_length hcase (by omega)
      rw [haq]
  · by_cases hlen : qs.length < a.length
    · left
      obtain ⟨t, htne, hdec⟩ := proper_prefix_decomp hcase hlen
      subst hdec
      apply (fnmatch_stars_iff qs (joinSegs (qs ++ t)) hplq).mpr
      exact ⟨(joinSegs t).data, joinSegs_slash_prefix qs t hq htne⟩
    · right
      have haq : qs = a := by
        have := List.IsPrefix.length_le hcase
        exact List.IsPrefix.eq_of_length hcase (by omega)
      rw [haq]

lemma is_dir_relevant_intro (R : Rules) (a : List String) (ha : a ≠ [])
    (hva : ∀ x ∈ a, validName x = true) (pat : String) (hmem : pat ∈ R.includePatterns)
    (h : fnmatch (joinSegs a) pat = true ∨ (joinSegs a ++ "/").data <+: pat.data) :
    is_dir_relevant R (joinSegs a) = true := by
  rw [is_dir_relevant]
  rcases hemp : R.includePatterns.isEmpty with _ | _
  · simp only [Bool.false_eq_true, if_false]
    rw [rstripSlashes_joinSegs a ha hva]
    by_cases hdot : joinSegs a = "" ∨ joinSegs a = "."
    · rw [if_pos hdot]
    · rw [if_neg hdot]
      apply List.any_eq_true.mpr
      refine ⟨pat, hmem, ?_⟩
      rcases h with h | h
      · simp [h]
      · rw [String.data_append, show ("/" : String).data = ['/'] from rfl] at h
        simp [h]
  · simp

/-- C3 (corrected, amended side): when every include pattern is either a
plain (glob-free) slash-joined segment path or such a path followed by
`/**`, include-pattern pruning is safe: an existing file that passes the
per-file filter and lies under no excluded directory is selected — pruning
by `is_dir_relevant` removes nothing the filters would admit. -/
theorem C3_prune_amended (R : Rules) (root : Forest) (dirs : List String) (fname : String)
    (hroot : ValidForest root = true) (hdirs : ∀ x ∈ dirs, validName x = true)
    (hfn : validName fname = true) (hskip0 : should_skip_dir R "" = false)
    (hform : ∀ pat ∈ R.includePatterns, ∃ qs, qs ≠ [] ∧ (∀ x ∈ qs, plainSeg x = true) ∧
      (pat = joinSegs qs ∨ pat = joinSegs qs ++ "/**"))
    (hfile : hasFileSegs root dirs fname = true)
    (hkeep : scanFileKeep R (joinSegs (dirs ++ [fname])) fname = true)
    (hnoskip : ∀ k < dirs.length, should_skip_dir R (joinSegs (dirs.take (k + 1))) = false) :
    joinSegs (dirs ++ [fname]) ∈ scan_target_files R root := by
  apply (scan_mem R root dirs fname hroot hdirs hfn hskip0).mpr
  refine ⟨hfile, hkeep, fun k hk => ⟨?_, hnoskip k hk⟩⟩
  have hinc : matches_include_patterns R (joinSegs (dirs ++ [fname])) = true := by
    rw [scanFileKeep, Bool.and_eq_true, Bool.and_eq_true] at hkeep
    exact hkeep.2
  have hane : dirs.take (k + 1) ≠ [] := by
    have hlen0 : 0 < (dirs.take (k + 1)).length := by
      rw [List.length_take]
      omega
    intro hnil
    rw [hnil] at hlen0
    simp at hlen0
  have hva : ∀ x ∈ dirs.take (k + 1), validName x = true :=
    fun x hx => hdirs x (List.take_subset _ _ hx)
  rw [matches_include_patterns] at hinc
  rcases hemp : R.includePatterns.isEmpty with _ | _
  · rw [hemp, if_neg (by decide : ¬ (false : Bool) = true)] at hinc
    obtain ⟨pat, hpmem, hpmatch⟩ := List.any_eq_true.mp hinc
    obtain ⟨qs, hqne, hqpl, hqform⟩ := hform pat hpmem
    have hvx : ∀ x ∈ dirs ++ [fname], validName x = true := by
      intro x hx
      rcases List.mem_append.mp hx with hx | hx
      · exact hdirs x hx
      · simp only [List.mem_singleton] at hx
        subst hx
        exact hfn
    have hpre : dirs.take (k + 1) <+: dirs ++ [fname] :=
      (List.take_prefix _ _).trans (List.prefix_append _ _)
    have hlen : (dirs.take (k + 1)).length < (dirs ++ [fname]).length := by
      simp only [List.length_take, List.length_append, List.length_singleton]
      omega
    rcases hqform with hqform | hqform
    · subst hqform
      apply is_dir_relevant_intro R (dirs.take (k + 1)) hane hva (joinSegs qs) hpmem
      exact Or.inr (relevant_level_lit qs (dirs ++ [fname]) (dirs.take (k + 1))
        hqne hane hqpl hvx hpmatch hpre hlen)
    · subst hqform
      apply is_dir_relevant_intro R (dirs.take (k + 1)) hane hva (joinSegs qs ++ "/**") hpmem
      rcases relevant_level_stars qs (dirs ++ [fname]) (dirs.take (k + 1))
          hqne hane (by simp) hqpl hvx hpmatch hpre with hc | hc
      · exact Or.inl hc
      · right
        calc (joinSegs (dirs.take (k + 1)) ++ "/").data
            <+: (joinSegs qs ++ "/").data := hc
          _ <+: (joinSegs qs ++ "/**").data := by
              rw [stars_data]
              exact List.prefix_append _ _
  · rw [is_dir_relevant]
    simp [hemp]

theorem C3_prune_witness :
    joinSegs (["src"] ++ ["app.ts"]) ∈
      scan_target_files ⟨[".ts"], [], [], ["src/**"]⟩
        (.dcons "src" (.fcons "app.ts" (.ok "") .nil) .nil) :=
  C3_prune_amended ⟨[".ts"], [], [], ["src/**"]⟩
    (.dcons "src" (.fcons "app.ts" (.ok "") .nil) .nil) ["src"] "app.ts"
    (by decide) (by decide) (by decide) (by decide)
    (fun pat hpat => by
      rw [List.mem_singleton] at hpat
      subst hpat
      exact ⟨["src"], by decide, by decide, Or.inr (by decide)⟩)
    (by decide) (by decide)
    (fun k hk => by
      have h0 : k = 0 := Nat.lt_one_iff.mp hk
      subst h0
      decide)

theorem C3_prune_counterexample :
    claimFourPreds ⟨[".ts"], [], [], ["*.ts"]⟩ "src/app.ts" = true ∧
      hasFileSegs (.dcons "src" (.fcons "app.ts" (.ok "") .nil) .nil) ["src"] "app.ts" = true ∧
      scan_target_files ⟨[".ts"], [], [], ["*.ts"]⟩
        (.dcons "src" (.fcons "app.ts" (.ok "") .nil) .nil) = [] := by
  decide

lemma hasFileSegs_removeTop (fname : String) : ∀ f : Forest,
    hasFileSegs (removeTop f fname) [] fname = false := by
  intro f
  induction f with
  | nil => rfl
  | fcons n d r ih =>
    rw [removeTop]
    by_cases h : n = fname
    · rw [if_pos h]
      exact ih
    · rw [if_neg h]
      rw [hasFileSegs]
      simp only [List.isEmpty_nil, Bool.true_and, Bool.or_eq_false_iff]
      exact ⟨by simpa using h, ih⟩
  | dcons n cs r ih1 ih2 =>
    rw [removeTop, hasFileSegs]
    simpa using ih2

lemma hasFileSegs_removeFileSegs (fname : String) : ∀ (ds : List String) (f : Forest),
    hasFileSegs (removeFileSegs f ds fname) ds fname = false := by
  intro ds
  induction ds with
  | nil =>
    intro f
    rw [removeFileSegs]
    exact hasFileSegs_removeTop fname f
  | cons d2 ds2 ih =>
    intro f
    induction f with
    | nil => rfl
    | fcons n d r ihf =>
      rw [removeFileSegs, hasFileSegs]
      simpa using ihf
    | dcons n cs r ih1 ih2 =>
      rw [removeFileSegs]
      by_cases h : n = d2
      · rw [if_pos h, hasFileSegs]
        simp only [Bool.or_eq_false_iff, Bool.and_eq_false_iff]
        exact ⟨Or.inr (ih cs), ih2⟩
      · rw [if_neg h, hasFileSegs]
        simp only [Bool.or_eq_false_iff, Bool.and_eq_false_iff]
        refine ⟨Or.inl ?_, ih2⟩
        simpa using h

lemma validForest_removeTop (fname : String) : ∀ f : Forest,
    ValidForest f = true → ValidForest (removeTop f fname) = true := by
  intro f
  induction f with
  | nil => intro h; exact h
  | fcons n d r ih =>
    intro h
    rw [ValidForest, Bool.and_eq_true] at h
    rw [removeTop]
    by_cases h2 : n = fname
    · rw [if_pos h2]
      exact ih h.2
    · rw [if_neg h2, ValidForest, Bool.and_eq_true]
      exact ⟨h.1, ih h.2⟩
  | dcons n cs r ih1 ih2 =>
    intro h
    rw [ValidForest, Bool.and_eq_true, Bool.and_eq_true] at h
    rw [removeTop, ValidForest, Bool.and_eq_true, Bool.and_eq_true]
    exact ⟨⟨h.1.1, h.1.2⟩, ih2 h.2⟩

lemma validForest_removeFileSegs (fname : String) : ∀ (ds : List String) (f : Forest),
    ValidForest f = true → ValidForest (removeFileSegs f ds fname) = true := by
  intro ds
  induction ds with
  | nil =>
    intro f h
    rw [removeFileSegs]
    exact validForest_removeTop fname f h
  | cons d2 ds2 ih =>
    intro f
    induction f with
    | nil => intro h; exact h
    | fcons n d r ihf =>
      intro h
      rw [ValidForest, Bool.and_eq_true] at h
      rw [removeFileSegs, ValidForest, Bool.and_eq_true]
      exact ⟨h.1, ihf h.2⟩
    | dcons n cs r ih1 ih2 =>
      intro h
      rw [ValidForest, Bool.and_eq_true, Bool.and_eq_true] at h
      rw [removeFileSegs]
      by_cases h2 : n = d2
      · rw [if_pos h2, ValidForest, Bool.and_eq_true, Bool.and_eq_true]
        exact ⟨⟨h.1.1, ih cs h.1.2⟩, ih2 h.2⟩
      · rw [if_neg h2, ValidForest, Bool.and_eq_true, Bool.and_eq_true]
        exact ⟨⟨h.1.1, h.1.2⟩, ih2 h.2⟩

/-- C9 (confirmed): the Bundler deletes an existing output file before it
scans the tree, so when the output path lies inside the start directory the
scan that follows never selects the previous run's bundle: the output path is
absent from the file list the bundler reads and concatenates. -/
theorem C9_unlink_before_scan (R : Rules) (root : Forest) (outDirs : List String)
    (outName : String) (hroot : ValidForest root = true)
    (hdirs : ∀ x ∈ outDirs, validName x = true) (hfn : validName outName = true) :
    joinSegs (outDirs ++ [outName]) ∉ bundlerScanAfterUnlink R root outDirs outName := by
  intro hmem
  rw [bundlerScanAfterUnlink] at hmem
  unfold scan_target_files at hmem
  by_cases h1 : is_dir_relevant R "" = true
  · rw [if_pos h1] at hmem
    by_cases h2 : should_skip_dir R "" = true
    · rw [if_pos h2] at hmem
      exact absurd hmem (List.not_mem_nil _)
    · rw [if_neg h2] at hmem
      have hje : joinSegs ([] : List String) = "" := rfl
      have haux := scan_mem_aux R outDirs (removeFileSegs root outDirs outName) [] outName
        (validForest_removeFileSegs outName outDirs root hroot) (by simp) hdirs hfn
      rw [hje] at haux
      simp only [List.nil_append] at haux
      obtain ⟨hfile, -, -⟩ := haux.mp hmem
      rw [hasFileSegs_removeFileSegs outName outDirs root] at hfile
      exact absurd hfile (by decide)
  · rw [if_neg h1] at hmem
    exact absurd hmem (List.not_mem_nil _)

theorem C9_unlink_witness :
    joinSegs ([] ++ ["bundle.txt"]) ∉
      bundlerScanAfterUnlink ⟨[".txt"], [], [], []⟩
        (.fcons "bundle.txt" (.ok "previous bundle") .nil) [] "bundle.txt" :=
  C9_unlink_before_scan ⟨[".txt"], [], [], []⟩
    (.fcons "bundle.txt" (.ok "previous bundle") .nil) [] "bundle.txt"
    (by decide) (by decide) (by decide)

lemma str_append_assoc (a b c : String) : a ++ b ++ c = a ++ (b ++ c) := by
  apply string_ext_data
  simp [String.data_append]

lemma bundle_foldlM_ok (root : Forest) : ∀ (l : List String) (acc : String),
    (∀ rel ∈ l, ∃ c, readAt root rel = .ok c) →
    l.foldlM (fun acc rel => (readAt root rel).map fun c =>
        acc ++ bundleBlock (toSlash rel) c) acc =
      .ok (acc ++ String.join (l.map fun rel =>
        bundleBlock (toSlash rel) ((readAt root rel).toOption.getD ""))) := by
  intro l
  induction l with
  | nil =>
    intro acc _
    rw [List.foldlM_nil, List.map_nil]
    rw [show String.join [] = "" from rfl, append_empty_str]
    rfl
  | cons x xs ih =>
    intro acc h
    obtain ⟨c, hc⟩ := h x (by simp)
    rw [List.foldlM_cons, hc]
    show Except.bind (Except.ok (acc ++ bundleBlock (toSlash x) c)) _ = _
    rw [show ∀ (y : String) (g : String → Except PyError String),
        Except.bind (Except.ok y) g = g y from fun _ _ => rfl]
    rw [ih (acc ++ bundleBlock (toSlash x) c) (fun rel hrel => h rel (by simp [hrel]))]
    rw [List.map_cons, join_cons, hc]
    rw [show (Except.ok c : Except PyError String).toOption.getD "" = c from rfl]
    rw [str_append_assoc]

lemma bundle_foldlM_error (root : Forest) (p : String) (e : PyError)
    (herr : readAt root p = .error e) : ∀ (pre : List String) (rest : List String) (acc : String),
    (∀ q ∈ pre, ∃ c, readAt root q = .ok c) →
    (pre ++ p :: rest).foldlM (fun acc rel => (readAt root rel).map fun c =>
        acc ++ bundleBlock (toSlash rel) c) acc = .error e := by
  intro pre
  induction pre with
  | nil =>
    intro rest acc _
    rw [List.nil_append, List.foldlM_cons, herr]
    rfl
  | cons q qs ih =>
    intro rest acc h
    obtain ⟨c, hc⟩ := h q (by simp)
    rw [List.cons_append, List.foldlM_cons, hc]
    show Except.bind (Except.ok (acc ++ bundleBlock (toSlash q) c)) _ = _
    rw [show ∀ (y : String) (g : String → Except PyError String),
        Except.bind (Except.ok y) g = g y from fun _ _ => rfl]
    exact ih rest _ (fun z hz => h z (by simp [hz]))

lemma bundleBlock_as_spec (rel c : String) :
    bundleBlock rel c = "// File: " ++ rel ++ "\n" ++ ensureNL c ++ "\n" := by
  rw [bundleBlock, ensureNL]
  apply string_ext_data
  simp [String.data_append]

/-- C6 (corrected): a raised read error aborts the run — the first selected
file (in bundling order) whose read fails determines the outcome of
`bundle_files`, and the resulting exception is exactly the one the read
raised: a permission failure is an `OSError` (= `IOError`) carrying the
file's path, but an encoding failure (`UnicodeDecodeError`) is a
`ValueError`, not an `IOError`, and does not report the path (see the
counterexample). -/
theorem C6_abort_amended (R : Rules) (root : Forest) (pre rest : List String) (p : String)
    (e : PyError)
    (hsort : List.insertionSort ciKey (scan_target_files R root) = pre ++ p :: rest)
    (hok : ∀ q ∈ pre, ∃ c, readAt root q = .ok c)
    (herr : readAt root p = .error e) :
    bundle_files R root = .error e := by
  rw [bundle_files, bundleWrite, hsort]
  exact bundle_foldlM_error root p e herr pre rest "" hok

theorem C6_abort_witness :
    bundle_files ⟨[".txt"], [], [], []⟩
        (.fcons "a.txt" (.ok "x") (.fcons "b.txt" .noPermission .nil)) =
      .error (.ioError "b.txt") :=
  C6_abort_amended ⟨[".txt"], [], [], []⟩
    (.fcons "a.txt" (.ok "x") (.fcons "b.txt" .noPermission .nil))
    ["a.txt"] [] "b.txt" (.ioError "b.txt") (by decide)
    (fun q hq => by
      rw [List.mem_singleton] at hq
      subst hq
      exact ⟨"x", rfl⟩)
    rfl

theorem C6_error_counterexample :
    bundle_files ⟨[".txt"], [], [], []⟩ (.fcons "a.txt" .badBytes .nil) =
        .error .valueError ∧
      ∀ q : String, (PyError.valueError : PyError) ≠ PyError.ioError q :=
  ⟨rfl, fun _ h => PyError.noConfusion h⟩

/-- C7 (confirmed): when every selected file is readable, the bundle is
exactly the concatenation, over the selected files sorted by their
case-insensitive relative path, of one block per file: the marker line
`// File: ` with the slash-normalized relative path, the file's content with
a newline appended when it lacks one, then one empty separator line. -/
theorem C7_bundle_format (R : Rules) (root : Forest)
    (hread : ∀ rel ∈ scan_target_files R root, ∃ c, readAt root rel = .ok c) :
    ∃ l, l.Perm (scan_target_files R root) ∧ List.Sorted ciKey l ∧
      bundle_files R root = .ok (String.join (l.map fun rel =>
        "// File: " ++ toSlash rel ++ "\n" ++
          ensureNL ((readAt root rel).toOption.getD "") ++ "\n")) := by
  refine ⟨List.insertionSort ciKey (scan_target_files R root),
    List.perm_insertionSort _ _, List.sorted_insertionSort _ _, ?_⟩
  rw [bundle_files, bundleWrite]
  rw [bundle_foldlM_ok root _ ""
    (fun rel hrel => hread rel ((List.perm_insertionSort _ _).mem_iff.mp hrel))]
  rw [empty_append_str]
  congr 1
  apply congrArg String.join
  apply List.map_congr_left
  intro rel h
  exact bundleBlock_as_spec (toSlash rel) _


theorem C7_bundle_format_witness :
    ∃ l, l.Perm (scan_target_files ⟨[".txt"], [], [], []⟩
        (.fcons "B.txt" (.ok "hi") (.fcons "a.txt" (.ok "x") .nil))) ∧
      List.Sorted ciKey l ∧
      bundle_files ⟨[".txt"], [], [], []⟩
          (.fcons "B.txt" (.ok "hi") (.fcons "a.txt" (.ok "x") .nil)) =
        .ok (String.join (l.map fun rel =>
          "// File: " ++ toSlash rel ++ "\n" ++
            ensureNL ((readAt (.fcons "B.txt" (.ok "hi") (.fcons "a.txt" (.ok "x") .nil))
              rel).toOption.getD "") ++ "\n")) :=
  C7_bundle_format ⟨[".txt"], [], [], []⟩
    (.fcons "B.txt" (.ok "hi") (.fcons "a.txt" (.ok "x") .nil))
    (fun rel hrel => by
      have hscan : scan_target_files ⟨[".txt"], [], [], []⟩
          (.fcons "B.txt" (.ok "hi") (.fcons "a.txt" (.ok "x") .nil)) =
          ["B.txt", "a.txt"] := by decide
      rw [hscan] at hrel
      rcases List.mem_cons.mp hrel with h | h
      · subst h
        exact ⟨"hi", rfl⟩
      · rw [List.mem_singleton] at h
        subst h
        exact ⟨"x", rfl⟩)

lemma joinRel_ne_empty (relDir n : String) (hn : validName n = true) :
    joinRel relDir n ≠ "" := by
  rw [joinRel]
  by_cases h : relDir = ""
  · rw [if_pos h]
    exact (validName_props hn).1
  · rw [if_neg h]
    intro he
    have hd : (relDir ++ "/" ++ n).data = [] := by rw [he]
    rw [String.data_append, String.data_append] at hd
    rcases List.append_eq_nil.mp hd with ⟨hd1, -⟩
    rcases List.append_eq_nil.mp hd1 with ⟨-, hd2⟩
    exact absurd hd2 (by decide)

lemma orderedInsert_map_fst {α β : Type} (F : String × α → String × β)
    (hF : ∀ p, (F p).1 = p.1) (x : String × α) : ∀ l : List (String × α),
    List.orderedInsert ciFstKey (F x) (l.map F) = (List.orderedInsert ciFstKey x l).map F := by
  intro l
  induction l with
  | nil => rfl
  | cons y ys ih =>
    rw [List.map_cons, List.orderedInsert, List.orderedInsert]
    have hiff : ciFstKey (F x) (F y) ↔ ciFstKey x y := by
      simp only [ciFstKey, hF]
    by_cases h : ciFstKey x y
    · rw [if_pos (hiff.mpr h), if_pos h, List.map_cons, List.map_cons]
    · rw [if_neg (fun hc => h (hiff.mp hc)), if_neg h, List.map_cons, ih]

lemma insertionSort_map_fst {α β : Type} (F : String × α → String × β)
    (hF : ∀ p, (F p).1 = p.1) : ∀ l : List (String × α),
    List.insertionSort ciFstKey (l.map F) = (List.insertionSort ciFstKey l).map F := by
  intro l
  induction l with
  | nil => rfl
  | cons x xs ih =>
    rw [List.map_cons, List.insertionSort, List.insertionSort, ih,
      orderedInsert_map_fst F hF x]

lemma walkTree_nonroot (R : Rules) (incAll : Bool) (name rd : String) (gs : Forest)
    (level : Nat) (hrd : rd ≠ "") :
    walkTree R incAll name rd gs level =
      if ¬ is_dir_relevant R rd = true ∨ should_skip_dir R rd = true then []
      else
        (ind level ++ "* " ++ name) ::
          ((List.insertionSort ciKey (treeFileNames R incAll rd gs)).map
              (fun fn => ind (level + 1) ++ "* " ++ fn) ++
            ((List.insertionSort ciFstKey (dirsOf gs)).map
                (fun p => walkTree R incAll p.1 (joinRel rd p.1) p.2 (level + 1))).flatten) := by
  rw [walkTree]
  by_cases h1 : is_dir_relevant R rd = true
  · by_cases h2 : should_skip_dir R rd = true
    · rw [if_neg (fun hc => hc.2 h1), if_pos ⟨hrd, h2⟩, if_pos (Or.inr h2)]
    · rw [if_neg (fun hc => hc.2 h1), if_neg (fun hc => h2 hc.2),
        if_neg (fun hc => hc.elim (fun hn => hn h1) h2)]
      simp only [if_neg hrd]
      rw [List.attach_map_val (List.insertionSort ciFstKey (dirsOf gs))
        (fun p : String × Forest => walkTree R incAll p.1 (joinRel rd p.1) p.2 (level + 1))]
      simp only [List.singleton_append, List.cons_append, List.nil_append]
  · rw [if_pos ⟨hrd, h1⟩, if_pos (Or.inl h1)]

lemma walkTree_root (R : Rules) (incAll : Bool) (root : Forest) :
    build_tree_lines R incAll root =
      (List.insertionSort ciKey (treeFileNames R incAll "" root)).map
          (fun fn => ind 0 ++ "* " ++ fn) ++
        ((List.insertionSort ciFstKey (dirsOf root)).map
            (fun p => walkTree R incAll p.1 (joinRel "" p.1) p.2 0)).flatten := by
  rw [build_tree_lines, walkTree]
  rw [if_neg (fun hc => hc.1 rfl), if_neg (fun hc => hc.1 rfl)]
  simp only [if_pos (rfl : ("" : String) = ""), if_true]
  rw [List.attach_map_val (List.insertionSort ciFstKey (dirsOf root))
    (fun p : String × Forest => walkTree R incAll p.1 (joinRel "" p.1) p.2 0)]
  simp only [List.nil_append]

lemma claimDirBlocks_eq_aux (R : Rules) (incAll : Bool) : ∀ (m : Nat) (cs : Forest),
    sizeOf cs ≤ m → ∀ (relDir : String) (level : Nat), ValidForest cs = true →
    claimDirBlocks R incAll relDir level cs =
      (dirsOf cs).map fun p =>
        (p.1, walkTree R incAll p.1 (joinRel relDir p.1) p.2 level) := by
  intro m
  induction m using Nat.strong_induction_on with
  | _ m ih =>
    intro cs hsize relDir level hval
    induction cs with
    | nil => rfl
    | fcons n d r ihr =>
      rw [claimDirBlocks, dirsOf]
      have hr := (validForest_fcons hval).2
      exact ihr (by simp only [Forest.fcons.sizeOf_spec] at hsize; omega) hr
    | dcons n gs r ih1 ih2 =>
      obtain ⟨hn, hgs, hr⟩ := validForest_dcons hval
      rw [claimDirBlocks, dirsOf, List.map_cons]
      have hsr : sizeOf r ≤ m := by
        simp only [Forest.dcons.sizeOf_spec] at hsize
        omega
      rw [ih2 hsr hr]
      have hrd : joinRel relDir n ≠ "" := joinRel_ne_empty relDir n hn
      congr 1
      rw [walkTree_nonroot R incAll n (joinRel relDir n) gs level hrd]
      by_cases hprune : ¬ is_dir_relevant R (joinRel relDir n) = true ∨
          should_skip_dir R (joinRel relDir n) = true
      · rw [if_pos hprune, if_pos hprune]
      · rw [if_neg hprune, if_neg hprune]
        have hsg : sizeOf gs < m := by
          simp only [Forest.dcons.sizeOf_spec] at hsize
          omega
        rw [ih (sizeOf gs) hsg gs (le_refl _) (joinRel relDir n) (level + 1) hgs]
        rw [insertionSort_map_fst
          (fun p : String × Forest =>
            (p.1, walkTree R incAll p.1 (joinRel (joinRel relDir n) p.1) p.2 (level + 1)))
          (fun p => rfl) (dirsOf gs)]
        rw [List.map_map]
        rfl

/-- C10 (confirmed): the tree printer's listing renders, at every level, a
directory's selected files sorted case-insensitively before that directory's
subdirectory subtrees, themselves in case-insensitive name order; the start
directory's files appear at indentation level 0 next to the top-level
directory names, and the start directory itself is never printed. -/
theorem C10_tree_order (R : Rules) (incAll : Bool) (root : Forest)
    (hroot : ValidForest root = true) :
    build_tree_lines R incAll root = build_tree_claim R incAll root := by
  rw [walkTree_root, build_tree_claim]
  congr 1
  rw [claimDirBlocks_eq_aux R incAll (sizeOf root) root (le_refl _) "" 0 hroot]
  rw [insertionSort_map_fst
    (fun p : String × Forest => (p.1, walkTree R incAll p.1 (joinRel "" p.1) p.2 0))
    (fun p => rfl) (dirsOf root)]
  rw [List.map_map]
  rfl

theorem C10_tree_order_witness :
    build_tree_lines ⟨[".ts"], [], [], []⟩ false
        (.dcons "src"
          (.fcons "app.ts" (.ok "")
            (.dcons "lib" (.fcons "util.ts" (.ok "") .nil) .nil)) .nil) =
      build_tree_claim ⟨[".ts"], [], [], []⟩ false
        (.dcons "src"
          (.fcons "app.ts" (.ok "")
            (.dcons "lib" (.fcons "util.ts" (.ok "") .nil) .nil)) .nil) :=
  C10_tree_order ⟨[".ts"], [], [], []⟩ false
    (.dcons "src"
      (.fcons "app.ts" (.ok "")
        (.dcons "lib" (.fcons "util.ts" (.ok "") .nil) .nil)) .nil)
    (by decide)

end BundleTool
